import Mathlib

/-!
# AudioCompressorVST: running generalized mean, compressor and limiter

A shallow embedding of `mean.h`, `trivial_array.h`, `dynamics.h` and of the audio path of
`AudioCompressor.cpp`.

* Samples are elements of a linearly ordered field `α` (exact arithmetic); the
  elementary functions of `<cmath>` that the code calls (`sqrt`, `pow`, `tanh`, ...)
  are parameters, instantiated with the real functions in the theorems.
* Undefined behaviour of the C++ code (an access outside `buffer_`, an integer
  modulo by zero, a conversion of an out-of-range `double` to `size_t`) is an
  `Except.error` carrying a `Fault`.
* A floating-point operation whose result is not a finite real number (a division by
  zero, `pow` outside its finite domain) yields `none`.
-/

namespace dsp

/-! ## trivial_array.h -/

/-- Undefined behaviour the embedded code can run into. -/
inductive Fault where
  | out_of_bounds
  | modulo_by_zero
  | float_to_unsigned
  deriving DecidableEq, Repr

/-- The storage of `trivial_array<Elem>`: `size_` elements; `size_` is the length. -/
abbrev trivial_array (α : Type) := List α

/-- Constructor `trivial_array(size, val)`: `size` copies of `val`. -/
def trivial_array.make {α : Type} (size : Nat) (val : α) : trivial_array α :=
  List.replicate size val

/-- Reading `arr_[n]` through `operator[]`; unchecked in the source, so an index
outside the array is undefined behaviour. -/
def trivial_array.read {α : Type} (a : trivial_array α) (n : Nat) : Except Fault α :=
  match a[n]? with
  | some v => .ok v
  | none => .error Fault.out_of_bounds

/-- Writing `arr_[n] = v` through `operator[]`. -/
def trivial_array.write {α : Type} (a : trivial_array α) (n : Nat) (v : α) :
    Except Fault (trivial_array α) :=
  if n < a.length then .ok (a.set n v) else .error Fault.out_of_bounds

/-! ## mean.h -/

/-- The `Functor` template parameter of `generalized_mean`: a power transform and the
matching root transform. -/
structure mean_functor (α : Type) where
  power : α → α
  root : α → α

/-- Struct `generalized_mean_functor<Sample, Exponent>`, constructed from the exponent
`e`: `zero` is `e == 0`, `inverted` is `1/e` (or `0` when `zero`). -/
def generalized_mean_functor {α : Type} [LinearOrderedField α]
    (log exp : α → α) (pow : α → α → α) (e : α) : mean_functor α :=
  let zero : Bool := decide ((0 : α) = e)
  let inverted : α := if zero then 0 else 1 / e
  { power := fun s => if zero then log s else pow s e
    root := fun s => if zero then exp s else pow s inverted }

/-- Struct `arithmetic_mean_functor<Sample>`. -/
def arithmetic_mean_functor {α : Type} : mean_functor α :=
  { power := fun s => s
    root := fun s => s }

/-- Struct `geometric_mean_functor<Sample>`. -/
def geometric_mean_functor {α : Type} (log exp : α → α) : mean_functor α :=
  { power := fun s => log s
    root := fun s => exp s }

/-- Struct `harmonic_mean_functor<Sample>`. -/
def harmonic_mean_functor {α : Type} [LinearOrderedField α] : mean_functor α :=
  { power := fun s => 1 / s
    root := fun s => 1 / s }

/-- Struct `quadratic_mean_functor<Sample>`. -/
def quadratic_mean_functor {α : Type} [LinearOrderedField α] (sqrt : α → α) :
    mean_functor α :=
  { power := fun s => s * s
    root := fun s => sqrt s }

/-- The data members of class `generalized_mean`. -/
structure generalized_mean (α : Type) where
  functor_ : mean_functor α
  buffer_ : trivial_array α
  pmean_ : α
  L_ : Nat
  n_ : Nat

/-- Constructor `generalized_mean(L, f, ic)`; the members are initialised in
declaration order, `pmean_` from `buffer_[0]`. -/
def generalized_mean.init {α : Type} [LinearOrderedField α]
    (L : Nat) (f : mean_functor α) (ic : α) : Except Fault (generalized_mean α) := do
  let buffer := trivial_array.make L (f.power ic / (L : α))
  let b0 ← trivial_array.read buffer 0
  pure { functor_ := f, buffer_ := buffer, pmean_ := (L : α) * b0, L_ := L, n_ := 0 }

/-- Member `generalized_mean::operator()(x)`: the new state and the returned mean. -/
def generalized_mean.call {α : Type} [LinearOrderedField α]
    (g : generalized_mean α) (x : α) : Except Fault (generalized_mean α × α) := do
  let p := g.functor_.power x / (g.L_ : α)
  let oldest ← trivial_array.read g.buffer_ g.n_
  let pmean := g.pmean_ - oldest
  let pmean := pmean + p
  let buffer ← trivial_array.write g.buffer_ g.n_ p
  let n := g.n_ + 1
  if g.L_ = 0 then throw Fault.modulo_by_zero
  let n := n % g.L_
  pure ({ g with buffer_ := buffer, pmean_ := pmean, n_ := n }, g.functor_.root pmean)

/-- Feeding the samples `xs` one after the other to `operator()`: the final state and
the list of returned means, in order. -/
def generalized_mean.run {α : Type} [LinearOrderedField α] :
    generalized_mean α → List α → Except Fault (generalized_mean α × List α)
  | g, [] => pure (g, [])
  | g, x :: xs => do
    let (g1, y) ← g.call x
    let (g2, ys) ← generalized_mean.run g1 xs
    pure (g2, y :: ys)

/-- Classes `arithmetic_mean`, `geometric_mean`, `harmonic_mean`, `quadratic_mean`:
the base constructor with the matching functor. -/
def arithmetic_mean {α : Type} [LinearOrderedField α] (L : Nat) (ic : α) :
    Except Fault (generalized_mean α) :=
  generalized_mean.init L arithmetic_mean_functor ic

/-- Class `quadratic_mean`: `base(L, 2, ic)` with `quadratic_mean_functor`. -/
def quadratic_mean {α : Type} [LinearOrderedField α] (sqrt : α → α) (L : Nat) (ic : α) :
    Except Fault (generalized_mean α) :=
  generalized_mean.init L (quadratic_mean_functor sqrt) ic

/-! ## dynamics.h

Values computed in floating point that need not be finite are `Option α`: `none` says that
an operation of the computation has no finite real result (IEEE gives an infinity or a NaN
there). The two step sizes `attack_delta_` and `release_delta_` are stored as `Option α`
with `none` for the value `+∞` that `1. / sample_count` takes at `sample_count == 0`. -/

/-- Floating-point division of finite operands: finite exactly when the divisor is not
zero. -/
def fdiv {α : Type} [LinearOrderedField α] (a b : α) : Option α :=
  if b = 0 then none else some (a / b)

/-- Function `std::pow(x, y)` on finite operands, `pow` being the real power function on
positive bases: `pow(x, 0)` is `1`, `pow(0, y)` is `0` for `y > 0` and infinite for `y < 0`,
and a negative base has a finite power only at an integer exponent. -/
def std_pow {α : Type} [LinearOrderedField α] [FloorRing α] (pow : α → α → α) (x y : α) :
    Option α :=
  if 0 < x then some (pow x y)
  else if y = 0 then some 1
  else if x = 0 then (if 0 < y then some 0 else none)
  else if Int.fract y = 0 then some (x ^ Int.floor y)
  else none

/-- Function `std::log10(x)` on finite operands: finite exactly for `x > 0`. -/
def std_log10 {α : Type} [LinearOrderedField α] (log10 : α → α) (x : α) : Option α :=
  if 0 < x then some (log10 x) else none

/-- The data members of class `compressor<Sample, Envelope>`, the envelope detector being
a `generalized_mean` (the default `Envelope` is `quadratic_mean<Sample>`). -/
structure compressor (α : Type) where
  envelope_ : generalized_mean α
  threshold_ : α
  gain_ : α
  ratio_ : α
  attack_delta_ : Option α
  release_delta_ : Option α
  transition_ : α

/-- Constructor `compressor(envelope_L)`: envelope `quadratic_mean(envelope_L)` with its
default initial condition `Sample()`, threshold `0`, gain and ratio `1`, both deltas `1`,
transition `0`. -/
def compressor.init {α : Type} [LinearOrderedField α] (sqrt : α → α) (envelope_L : Nat) :
    Except Fault (compressor α) := do
  let envelope ← quadratic_mean sqrt envelope_L 0
  pure { envelope_ := envelope, threshold_ := 0, gain_ := 1, ratio_ := 1,
         attack_delta_ := some 1, release_delta_ := some 1, transition_ := 0 }

/-- Member `compressor::threshold_dB()`. -/
def compressor.threshold_dB {α : Type} [LinearOrderedField α] (log10 : α → α)
    (c : compressor α) : Option α :=
  (std_log10 log10 c.threshold_).map fun v => 20 * v

/-- Member `compressor::set_threshold_dB(t)`: `threshold_ = pow(10, t/20)`. -/
def compressor.set_threshold_dB {α : Type} [LinearOrderedField α] (pow : α → α → α)
    (c : compressor α) (t : α) : compressor α :=
  { c with threshold_ := pow 10 (t / 20) }

/-- Member `compressor::set_threshold(t)`. -/
def compressor.set_threshold {α : Type} (c : compressor α) (t : α) : compressor α :=
  { c with threshold_ := t }

/-- Member `compressor::gain_dB()`. -/
def compressor.gain_dB {α : Type} [LinearOrderedField α] (log10 : α → α)
    (c : compressor α) : Option α :=
  (std_log10 log10 c.gain_).map fun v => 20 * v

/-- Member `compressor::set_gain_dB(g)`: `gain_ = pow(10, g/20)`. -/
def compressor.set_gain_dB {α : Type} [LinearOrderedField α] (pow : α → α → α)
    (c : compressor α) (g : α) : compressor α :=
  { c with gain_ := pow 10 (g / 20) }

/-- Member `compressor::set_gain(g)`. -/
def compressor.set_gain {α : Type} (c : compressor α) (g : α) : compressor α :=
  { c with gain_ := g }

/-- Member `compressor::set_ratio(r)`. -/
def compressor.set_ratio {α : Type} (c : compressor α) (r : α) : compressor α :=
  { c with ratio_ := r }

/-- The quotient `1. / sample_count` for an unsigned `sample_count`: `+∞` (here `none`) at
zero. -/
def delta_of_count {α : Type} [LinearOrderedField α] (sample_count : Nat) : Option α :=
  if sample_count = 0 then none else some (1 / (sample_count : α))

/-- Member `compressor::set_attack(sample_count)`. -/
def compressor.set_attack {α : Type} [LinearOrderedField α] (c : compressor α)
    (sample_count : Nat) : compressor α :=
  { c with attack_delta_ := delta_of_count sample_count }

/-- Member `compressor::set_release(sample_count)`. -/
def compressor.set_release {α : Type} [LinearOrderedField α] (c : compressor α)
    (sample_count : Nat) : compressor α :=
  { c with release_delta_ := delta_of_count sample_count }

/-- Lines 52-56 of `compressor::operator()`: the transition adjusted by the attack or the
release step according to the level `ref`; `min(1., t + ∞)` is `1` and `max(0., t - ∞)`
is `0`. -/
def compressor.adjust_transition {α : Type} [LinearOrderedField α] (c : compressor α)
    (ref : α) : α :=
  if ref > c.threshold_ then
    match c.attack_delta_ with
    | some a => min 1 (c.transition_ + a)
    | none => 1
  else if ref < c.threshold_ then
    match c.release_delta_ with
    | some r => max 0 (c.transition_ - r)
    | none => 0
  else c.transition_

/-- Lines 58-64 of `compressor::operator()`: the gain before the additional gain, computed
from the level `ref` and the adjusted `transition`. -/
def compressor.compute_gain {α : Type} [LinearOrderedField α] [FloorRing α]
    (pow : α → α → α) (c : compressor α) (transition ref : α) : Option α := do
  let ratio := 1 + transition * (c.ratio_ - 1)
  let rel ← fdiv ref c.threshold_
  let rel ← if ratio ≠ 1 then (do
      let e ← fdiv 1 ratio
      std_pow pow rel e)
    else pure rel
  fdiv (c.threshold_ * rel) ref

/-- Lines 65-71 of `compressor::operator()`: the value stored through a non-null
`compression_dB`. -/
def compressor.telemetry {α : Type} [LinearOrderedField α] (log10 : α → α) (epsilon : α)
    (gain : Option α) : Option α := do
  let g ← gain
  let v ← if 0 = g then std_log10 log10 epsilon else std_log10 log10 g
  pure (20 * v)

/-- What one call of `compressor::operator()` leaves behind: the new state, the returned
sample, and the value written through `compression_dB` (`none` when the pointer is null,
`some none` when the value written is not finite). -/
structure compressor.result (α : Type) where
  state : compressor α
  sample : Option α
  compression_dB : Option (Option α)

/-- Member `compressor::operator()(x, compression_dB)`; `want_dB` says whether the
pointer `compression_dB` is non-null. -/
def compressor.call {α : Type} [LinearOrderedField α] [FloorRing α]
    (pow : α → α → α) (log10 : α → α) (epsilon : α)
    (c : compressor α) (x : α) (want_dB : Bool) : Except Fault (compressor.result α) := do
  let (envelope, e) ← c.envelope_.call x
  let ref := |e|
  let transition := c.adjust_transition ref
  let gain := compressor.compute_gain pow c transition ref
  let dB := if want_dB then some (compressor.telemetry log10 epsilon gain) else none
  let gain := gain.map fun g => g * c.gain_
  let x := gain.map fun g => g * x
  pure { state := { c with envelope_ := envelope, transition_ := transition },
         sample := x, compression_dB := dB }

/-- Feeding the samples `xs` one after the other to `compressor::operator()` with a null
`compression_dB`, as the block loop of `ProcessDoubleReplacing` does for a channel: the
final state and the returned samples, in order. -/
def compressor.run {α : Type} [LinearOrderedField α] [FloorRing α]
    (pow : α → α → α) (log10 : α → α) (epsilon : α) :
    compressor α → List α → Except Fault (compressor α × List (Option α))
  | c, [] => pure (c, [])
  | c, x :: xs => do
    let r ← c.call pow log10 epsilon x false
    let (c2, ys) ← compressor.run pow log10 epsilon r.state xs
    pure (c2, r.sample :: ys)

/-- The compressor states the program can be in: the constructed one, and any state
obtained from such a state by a setter or by processing a sample. -/
inductive compressor.reachable {α : Type} [LinearOrderedField α] [FloorRing α]
    (sqrt : α → α) (pow : α → α → α) (log10 : α → α) (epsilon : α) : compressor α → Prop
  | init (L : Nat) (c : compressor α) :
      compressor.init sqrt L = .ok c → compressor.reachable sqrt pow log10 epsilon c
  | set_threshold_dB (c : compressor α) (t : α) :
      compressor.reachable sqrt pow log10 epsilon c →
      compressor.reachable sqrt pow log10 epsilon (c.set_threshold_dB pow t)
  | set_threshold (c : compressor α) (t : α) :
      compressor.reachable sqrt pow log10 epsilon c →
      compressor.reachable sqrt pow log10 epsilon (c.set_threshold t)
  | set_gain_dB (c : compressor α) (g : α) :
      compressor.reachable sqrt pow log10 epsilon c →
      compressor.reachable sqrt pow log10 epsilon (c.set_gain_dB pow g)
  | set_gain (c : compressor α) (g : α) :
      compressor.reachable sqrt pow log10 epsilon c →
      compressor.reachable sqrt pow log10 epsilon (c.set_gain g)
  | set_ratio (c : compressor α) (r : α) :
      compressor.reachable sqrt pow log10 epsilon c →
      compressor.reachable sqrt pow log10 epsilon (c.set_ratio r)
  | set_attack (c : compressor α) (n : Nat) :
      compressor.reachable sqrt pow log10 epsilon c →
      compressor.reachable sqrt pow log10 epsilon (c.set_attack n)
  | set_release (c : compressor α) (n : Nat) :
      compressor.reachable sqrt pow log10 epsilon c →
      compressor.reachable sqrt pow log10 epsilon (c.set_release n)
  | call (c : compressor α) (x : α) (want_dB : Bool) (r : compressor.result α) :
      compressor.reachable sqrt pow log10 epsilon c →
      c.call pow log10 epsilon x want_dB = .ok r →
      compressor.reachable sqrt pow log10 epsilon r.state

/-- The data members of class `limiter<Sample, Functor>` that the code reads; `limit_`
is declared but never initialised or used. -/
structure limiter (α : Type) where
  functor_ : α → α
  threshold_ : α
  swing_ : α

/-- Member `limiter::set_threshold(t)`. -/
def limiter.set_threshold {α : Type} [LinearOrderedField α] (l : limiter α) (t : α) :
    limiter α :=
  { l with threshold_ := t, swing_ := 1 - t }

/-- Member `limiter::set_threshold_dB(t)`. -/
def limiter.set_threshold_dB {α : Type} [LinearOrderedField α] (pow : α → α → α)
    (l : limiter α) (t : α) : limiter α :=
  l.set_threshold (pow 10 (t / 20))

/-- Member `limiter::threshold_dB()`. -/
def limiter.threshold_dB {α : Type} [LinearOrderedField α] (log10 : α → α)
    (l : limiter α) : Option α :=
  (std_log10 log10 l.threshold_).map fun v => 20 * v

/-- Constructor `limiter(fun)`: stores the functor and calls `set_threshold_dB(-1)`, which
gives `threshold_` and `swing_` their first values. -/
def limiter.init {α : Type} [LinearOrderedField α] (pow : α → α → α) (fn : α → α) :
    limiter α :=
  limiter.set_threshold_dB pow { functor_ := fn, threshold_ := 0, swing_ := 0 } (-1)

/-- Member `limiter::operator()(x)`. -/
def limiter.call {α : Type} [LinearOrderedField α] (l : limiter α) (x : α) : Option α :=
  let a := |x|
  if a ≤ l.threshold_ then some x
  else do
    let inp ← fdiv (a - l.threshold_) l.swing_
    let out := l.functor_ inp
    let gain ← fdiv (l.threshold_ + out * l.swing_) a
    pure (x * gain)

/-- The magnitude that `limiter::operator()` gives a sample of magnitude `a`: `a` itself up
to the threshold, `threshold + functor((a - threshold)/swing) * swing` above it. -/
def limiter.shape {α : Type} [LinearOrderedField α] (l : limiter α) (a : α) : α :=
  if a ≤ l.threshold_ then a
  else l.threshold_ + l.functor_ ((a - l.threshold_) / l.swing_) * l.swing_

/-! ## AudioCompressor.h and AudioCompressor.cpp

The plugin shell of IPlug is not part of the sources: the sample rate returned by
`GetSampleRate()` and the value returned by `GetParam(i)->Value()` are parameters. -/

/-- Conversion of a `double` to `size_t`: the value is truncated toward zero, and the
behaviour is undefined when the truncated value is negative or does not fit 64 bits. -/
def to_size_t {α : Type} [LinearOrderedField α] [FloorRing α] (v : α) : Except Fault Nat :=
  if v ≤ -1 ∨ (2 : α) ^ 64 ≤ v then .error Fault.float_to_unsigned else .ok (Nat.floor v)

/-- The data members of class `AudioCompressor`: one compressor, one limiter, and the
atomic parameter values. `rms_period_ms` is declared but never accessed. -/
structure AudioCompressor (α : Type) where
  comp : compressor α
  lim : limiter α
  mGain : α
  rms_period_ms : α
  attack_ms : α
  release_ms : α
  threshold_dB : α
  gain_dB : α
  ratio : α

/-- Constructor `AudioCompressor(instanceInfo)`: `mGain(1.)`, `comp(40.)` and the default
limiter (`tanh`). The other atomics are not initialised by the constructor; the values they
hold are the last six parameters. -/
def AudioCompressor.init {α : Type} [LinearOrderedField α] (sqrt : α → α) (pow : α → α → α)
    (tanh : α → α) (rms_period_ms attack_ms release_ms threshold_dB gain_dB ratio : α) :
    Except Fault (AudioCompressor α) := do
  let comp ← compressor.init sqrt 40
  pure { comp := comp, lim := limiter.init pow tanh, mGain := 1,
         rms_period_ms := rms_period_ms, attack_ms := attack_ms, release_ms := release_ms,
         threshold_dB := threshold_dB, gain_dB := gain_dB, ratio := ratio }

/-- Member `AudioCompressor::OnParamChange(paramIdx)`, `value` being
`GetParam(paramIdx)->Value()`; the indices are those of `enum EParams`. -/
def AudioCompressor.OnParamChange {α : Type} [LinearOrderedField α] (p : AudioCompressor α)
    (paramIdx : Nat) (value : α) : AudioCompressor α :=
  match paramIdx with
  | 0 => { p with mGain := value / 100 }
  | 2 => { p with attack_ms := value }
  | 3 => { p with release_ms := value }
  | 4 => { p with threshold_dB := value }
  | 5 => { p with gain_dB := value }
  | 6 => { p with ratio := value }
  | _ => p

/-- Lines 103-108 of `ProcessDoubleReplacing`: the five setter calls that copy the
parameter values into `comp` at the start of a block. -/
def AudioCompressor.configure {α : Type} [LinearOrderedField α] [FloorRing α]
    (pow : α → α → α) (sampleRate : α) (p : AudioCompressor α) :
    Except Fault (compressor α) := do
  let a ← to_size_t (sampleRate * (1 / 1000) * p.attack_ms)
  let comp := p.comp.set_attack a
  let r ← to_size_t (sampleRate * (1 / 1000) * p.release_ms)
  let comp := comp.set_release r
  let comp := comp.set_threshold_dB pow p.threshold_dB
  let comp := comp.set_gain_dB pow p.gain_dB
  let comp := comp.set_ratio p.ratio
  pure comp

/-- Lines 111-118 of `ProcessDoubleReplacing`: the loop over the frames `(in1[s], in2[s])`;
both samples of a frame go through the one `comp` and the one `lim`, channel 1 first. The
limiter maps a non-finite sample to a non-finite sample. -/
def AudioCompressor.process_frames {α : Type} [LinearOrderedField α] [FloorRing α]
    (pow : α → α → α) (log10 : α → α) (epsilon : α) (lim : limiter α) (mGain : α) :
    compressor α → List (α × α) → Except Fault (compressor α × List (Option α × Option α))
  | c, [] => pure (c, [])
  | c, (in1, in2) :: rest => do
    let out1 := in1 * mGain
    let out2 := in2 * mGain
    let r1 ← c.call pow log10 epsilon out1 false
    let out1 := r1.sample.bind lim.call
    let r2 ← r1.state.call pow log10 epsilon out2 false
    let out2 := r2.sample.bind lim.call
    let (c2, outs) ← AudioCompressor.process_frames pow log10 epsilon lim mGain r2.state rest
    pure (c2, (out1, out2) :: outs)

/-- Member `AudioCompressor::ProcessDoubleReplacing(inputs, outputs, nFrames)` on the
`nFrames` frames `(inputs[0][s], inputs[1][s])`: the new plugin state and the frames
`(outputs[0][s], outputs[1][s])`. -/
def AudioCompressor.ProcessDoubleReplacing {α : Type} [LinearOrderedField α] [FloorRing α]
    (pow : α → α → α) (log10 : α → α) (epsilon : α) (sampleRate : α)
    (p : AudioCompressor α) (frames : List (α × α)) :
    Except Fault (AudioCompressor α × List (Option α × Option α)) := do
  let comp ← AudioCompressor.configure pow sampleRate p
  let (comp, outs) ← AudioCompressor.process_frames pow log10 epsilon p.lim p.mGain comp frames
  pure ({ p with comp := comp }, outs)

/-- The samples of a block in the order in which `comp` receives them: for each frame the
channel-1 sample and then the channel-2 sample, both scaled by `mGain`. -/
def interleave {α : Type} [LinearOrderedField α] (mGain : α) : List (α × α) → List α
  | [] => []
  | (in1, in2) :: rest => in1 * mGain :: in2 * mGain :: interleave mGain rest

/-- Regrouping a sequence of samples into frames of two. -/
def frames_of {β : Type} : List β → List (β × β)
  | a :: b :: rest => (a, b) :: frames_of rest
  | _ => []

/-! ## The direct recomputation the estimator is compared with -/

/-- The last `L` elements of the sample sequence `l` (all of it when it is shorter). -/
def last_samples {α : Type} (L : Nat) (l : List α) : List α :=
  l.drop (l.length - L)

/-- The generalized mean recomputed from scratch over a window `w` of `n` samples, in
the words of the specification: `root((1/n) * sum of power(w_i))`. -/
def direct_mean {α : Type} [LinearOrderedField α] (f : mean_functor α) (n : Nat)
    (w : List α) : α :=
  f.root (1 / (n : α) * (w.map f.power).sum)

/-! ## Invariants used in the proofs -/

/-- The estimator state `g` after `k` steps over the sample stream `s`. -/
def mean_inv {α : Type} [LinearOrderedField α] (f : mean_functor α) (L : Nat) (s : Nat → α)
    (k : Nat) (g : generalized_mean α) : Prop :=
  g.functor_ = f ∧ g.L_ = L ∧ g.buffer_.length = L ∧ g.n_ = k % L ∧
  (∀ j, k ≤ j → j < k + L → g.buffer_[j % L]? = some (f.power (s j) / (L : α))) ∧
  g.pmean_ = ∑ j in Finset.Ico k (k + L), f.power (s j) / (L : α)

/-- The accumulator of an estimator is consistent: the buffer has `L_` slots, the cursor
points into it, and the slots add up to `pmean_`. -/
def slots_inv {α : Type} [LinearOrderedField α] (g : generalized_mean α) : Prop :=
  g.buffer_.length = g.L_ ∧ g.n_ < g.L_ ∧ g.buffer_.sum = g.pmean_

/-- The stream of a step from silence to the constant `x` that starts at position `b`. -/
def step_stream {α : Type} [LinearOrderedField α] (b : Nat) (x : α) (j : Nat) : α :=
  if j < b then 0 else x

/-! ## Estimator: the incremental update against the window sum -/

theorem mean_inv_init {α : Type} [LinearOrderedField α] (f : mean_functor α) (L : Nat)
    (hL : 0 < L) (ic : α) (s : Nat → α) (hs : ∀ j, j < L → s j = ic) :
    ∃ g, generalized_mean.init L f ic = .ok g ∧ mean_inv f L s 0 g := by
  have h0 : (trivial_array.make L (f.power ic / (L : α)))[0]? = some (f.power ic / (L : α)) := by
    simp [trivial_array.make, List.getElem?_replicate, hL]
  refine ⟨{ functor_ := f, buffer_ := trivial_array.make L (f.power ic / (L : α)),
            pmean_ := (L : α) * (f.power ic / (L : α)), L_ := L, n_ := 0 }, ?_, ?_⟩
  · simp only [generalized_mean.init, trivial_array.read, h0]
    rfl
  · refine ⟨rfl, rfl, ?_, ?_, ?_, ?_⟩
    · simp [trivial_array.make]
    · simp
    · intro j _ hj
      have hj2 : j < L := by omega
      simp [trivial_array.make, List.getElem?_replicate, Nat.mod_eq_of_lt hj2, hj2, hs j hj2]
    · have : ∀ j ∈ Finset.Ico 0 (0 + L), f.power (s j) / (L : α) = f.power ic / (L : α) := by
        intro j hj
        rw [hs j (by simpa using hj)]
      rw [Finset.sum_congr rfl this]
      simp

theorem mean_inv_call {α : Type} [LinearOrderedField α] (f : mean_functor α) (L : Nat)
    (hL : 0 < L) (s : Nat → α) (k : Nat) (g : generalized_mean α) (h : mean_inv f L s k g) :
    ∃ g1, g.call (s (k + L)) =
        .ok (g1, f.root (∑ j in Finset.Ico (k + 1) (k + 1 + L), f.power (s j) / (L : α))) ∧
      mean_inv f L s (k + 1) g1 := by
  obtain ⟨hf, hLg, hlen, hn, hbuf, hp⟩ := h
  have hkL : k % L < L := Nat.mod_lt _ hL
  have hold : g.buffer_[g.n_]? = some (f.power (s k) / (L : α)) := by
    rw [hn]; exact hbuf k le_rfl (by omega)
  have hsum : g.pmean_ - f.power (s k) / (L : α) + f.power (s (k + L)) / (L : α) =
      ∑ j in Finset.Ico (k + 1) (k + 1 + L), f.power (s j) / (L : α) := by
    rw [hp, Finset.sum_eq_sum_Ico_succ_bot (by omega : k < k + L),
      show k + 1 + L = (k + L) + 1 by omega, Finset.sum_Ico_succ_top (by omega : k + 1 ≤ k + L)]
    ring
  have hw : g.n_ < g.buffer_.length := by rw [hn, hlen]; exact hkL
  have hL0 : ¬ g.L_ = 0 := by rw [hLg]; omega
  refine ⟨{ g with buffer_ := g.buffer_.set g.n_ (f.power (s (k + L)) / (L : α)),
                   pmean_ := g.pmean_ - f.power (s k) / (L : α) + f.power (s (k + L)) / (L : α),
                   n_ := (g.n_ + 1) % g.L_ }, ?_, ?_⟩
  · simp only [generalized_mean.call, trivial_array.read, trivial_array.write, hold, hw, hf, hLg]
    simp [bind, Except.bind, pure, Except.pure, hL.ne', hsum]
  · refine ⟨hf, hLg, ?_, ?_, ?_, hsum⟩
    · simpa using hlen
    · simp [hn, hLg]
    · intro j hj1 hj2
      show (g.buffer_.set g.n_ _)[j % L]? = _
      rw [hn]
      by_cases hj : j = k + L
      · subst hj
        simp [List.getElem?_set, hlen, hkL]
      · have hne : k % L ≠ j % L := by
          intro he
          have h0 : (j - k) % L = 0 := Nat.sub_mod_eq_zero_of_mod_eq he.symm
          rw [Nat.mod_eq_of_lt (by omega)] at h0
          omega
        rw [List.getElem?_set_ne hne]
        exact hbuf j (by omega) (by omega)

theorem mean_inv_run {α : Type} [LinearOrderedField α] (f : mean_functor α) (L : Nat)
    (hL : 0 < L) (s : Nat → α) :
    ∀ (xs : List α) (k : Nat) (g : generalized_mean α), mean_inv f L s k g →
      (∀ i, i < xs.length → xs[i]? = some (s (k + L + i))) →
      ∃ g1 ys, g.run xs = .ok (g1, ys) ∧ mean_inv f L s (k + xs.length) g1 ∧
        ys.length = xs.length ∧
        ∀ i, i < xs.length → ys[i]? =
          some (f.root (∑ j in Finset.Ico (k + i + 1) (k + i + 1 + L), f.power (s j) / (L : α))) := by
  intro xs
  induction xs with
  | nil =>
    intro k g h _
    exact ⟨g, [], rfl, by simpa using h, rfl, by simp⟩
  | cons x xs ih =>
    intro k g h hx
    obtain ⟨g1, hc, h1⟩ := mean_inv_call f L hL s k g h
    have hx0 : x = s (k + L) := by simpa using hx 0 (by simp)
    obtain ⟨g2, ys, hr, h2, hlen, hys⟩ := ih (k + 1) g1 h1 (by
      intro i hi
      have := hx (i + 1) (by simpa using hi)
      rw [List.getElem?_cons_succ] at this
      rw [this]
      congr 2
      omega)
    refine ⟨g2, f.root (∑ j in Finset.Ico (k + 1) (k + 1 + L), f.power (s j) / (L : α)) :: ys,
      ?_, ?_, by simp [hlen], ?_⟩
    · rw [generalized_mean.run, hx0, hc]
      simp [bind, Except.bind, hr, pure, Except.pure]
    · have : k + (x :: xs).length = k + 1 + xs.length := by simp; omega
      rw [this]; exact h2
    · intro i hi
      cases i with
      | zero => simp
      | succ i =>
        rw [List.getElem?_cons_succ, hys i (by simpa using hi)]
        have : k + 1 + i + 1 = k + (i + 1) + 1 := by omega
        rw [this]

theorem sum_Ico_getD {α : Type} [LinearOrderedField α] (l : List α) (d : α) (F : α → α)
    (a : Nat) : ∀ n, a + n ≤ l.length →
      ∑ j in Finset.Ico a (a + n), F (l.getD j d) = (((l.drop a).take n).map F).sum := by
  intro n
  induction n with
  | zero => intro _; simp
  | succ n ih =>
    intro h
    have hlt : a + n < l.length := by omega
    rw [← Nat.add_assoc, Finset.sum_Ico_succ_top (by omega), ih (by omega), List.take_succ]
    simp [List.getElem?_drop, List.getD_eq_getElem?_getD, List.getElem?_eq_getElem hlt]

theorem sum_map_div {α : Type} [LinearOrderedField α] (F : α → α) (c : α) (w : List α) :
    (w.map (fun x => F x / c)).sum = 1 / c * (w.map F).sum := by
  induction w with
  | nil => simp
  | cons a w ih => simp only [List.map_cons, List.sum_cons, ih]; ring

theorem window_eq {α : Type} (L : Nat) (ic : α) (xs : List α) (m : Nat) (hm : m ≤ xs.length) :
    ((List.replicate L ic ++ xs).drop m).take L =
      last_samples L (List.replicate L ic ++ xs.take m) := by
  have h1 : List.replicate L ic ++ xs.take m = (List.replicate L ic ++ xs).take (L + m) := by
    have := @List.take_append _ (List.replicate L ic) xs m
    rw [List.length_replicate] at this
    exact this.symm
  have h2 : (List.replicate L ic ++ xs.take m).length = L + m := by
    simp [List.length_take, Nat.min_eq_left hm]
  have e1 : L + m - (L + m - L) = L := by omega
  have e2 : L + m - L = m := by omega
  rw [last_samples, h2, h1, List.drop_take, e1, e2]

theorem last_samples_pad {α : Type} (L : Nat) (ic : α) (l : List α) :
    last_samples L (List.replicate L ic ++ l) =
      List.replicate (L - l.length) ic ++ last_samples (min l.length L) l := by
  have h : (List.replicate L ic ++ l).length - L = l.length := by simp
  rw [last_samples, h, List.drop_append_eq_append_drop, List.drop_replicate, last_samples]
  congr 2
  simp only [List.length_replicate]
  omega

/-- Feeding `xs` to a freshly constructed estimator succeeds, and the output of step
`k + 1` is the root of the sum of `power(w)/L` over the window of the last `L` elements
of `L` copies of `ic` followed by the first `k + 1` inputs. -/
theorem mean_run_window {α : Type} [LinearOrderedField α] (f : mean_functor α) (L : Nat)
    (hL : 0 < L) (ic : α) (xs : List α) :
    ∃ g0 g ys, generalized_mean.init L f ic = .ok g0 ∧ g0.run xs = .ok (g, ys) ∧
      ys.length = xs.length ∧
      ∀ k, k < xs.length → ys[k]? = some (f.root
        (((last_samples L (List.replicate L ic ++ xs.take (k + 1))).map
          (fun w => f.power w / (L : α))).sum)) := by
  obtain ⟨g0, h0, hinv⟩ := mean_inv_init f L hL ic
    (fun j => (List.replicate L ic ++ xs).getD j ic) (by
      intro j hj
      simp [List.getD_eq_getElem?_getD, List.getElem?_append_left, hj])
  obtain ⟨g, ys, hr, _, hlen, hys⟩ := mean_inv_run f L hL _ xs 0 g0 hinv (by
    intro i hi
    have h1 : (List.replicate L ic ++ xs)[0 + L + i]? = xs[i]? := by
      rw [List.getElem?_append_right (by simp)]
      congr 1
      simp
    have h2 : xs[i]? = some xs[i] := List.getElem?_eq_getElem hi
    simp only [List.getD_eq_getElem?_getD, h1, h2, Option.getD_some])
  refine ⟨g0, g, ys, h0, hr, hlen, ?_⟩
  intro k hk
  rw [hys k hk, ← window_eq L ic xs (k + 1) (by omega)]
  congr 2
  have := sum_Ico_getD (List.replicate L ic ++ xs) ic (fun w => f.power w / (L : α)) (k + 1) L
    (by simp; omega)
  simpa using this

/-! ## Claims on the estimator -/

/-- C1: for every window length `L ≥ 1`, initial condition `ic` and input sequence `xs`,
feeding `xs` to a freshly constructed estimator succeeds and the value returned by the
call number `k + 1` is `root((1/L) * sum of power(w))` over the last `L` elements `w` of
`L` copies of `ic` followed by the first `k + 1` inputs; once `k + 1 ≥ L` this is the
generalized mean of the last `L` inputs alone, whatever `ic` and the older inputs were. -/
theorem C1_running_mean_refines_direct_mean {α : Type} [LinearOrderedField α]
    (f : mean_functor α) (L : Nat) (hL : 1 ≤ L) (ic : α) (xs : List α) :
    ∃ g0 g ys, generalized_mean.init L f ic = .ok g0 ∧ g0.run xs = .ok (g, ys) ∧
      ys.length = xs.length ∧
      ∀ k, k < xs.length →
        ys[k]? = some (direct_mean f L
          (last_samples L (List.replicate L ic ++ xs.take (k + 1)))) ∧
        (L ≤ k + 1 → ys[k]? = some (direct_mean f L (last_samples L (xs.take (k + 1))))) := by
  obtain ⟨g0, g, ys, h0, hr, hlen, hys⟩ := mean_run_window f L hL ic xs
  refine ⟨g0, g, ys, h0, hr, hlen, ?_⟩
  intro k hk
  have hmain : ys[k]? = some (direct_mean f L
      (last_samples L (List.replicate L ic ++ xs.take (k + 1)))) := by
    rw [hys k hk, direct_mean, sum_map_div]
  refine ⟨hmain, ?_⟩
  intro hLk
  have hlen1 : (xs.take (k + 1)).length = k + 1 := by
    rw [List.length_take]; omega
  rw [hmain, last_samples_pad, hlen1, Nat.sub_eq_zero_of_le hLk, Nat.min_eq_right hLk]
  simp

/-- C1 at `L = 2`, the arithmetic mean over the rationals, `ic = 0`, inputs `2, 4, 6`. -/
theorem C1_running_mean_refines_direct_mean_witness :
    1 ≤ 2 ∧ ∃ g0 g ys, generalized_mean.init 2 arithmetic_mean_functor (0 : ℚ) = .ok g0 ∧
      g0.run [2, 4, 6] = .ok (g, ys) ∧ ys.length = [(2 : ℚ), 4, 6].length ∧
      ∀ k, k < [(2 : ℚ), 4, 6].length →
        ys[k]? = some (direct_mean arithmetic_mean_functor 2
          (last_samples 2 (List.replicate 2 0 ++ [(2 : ℚ), 4, 6].take (k + 1)))) ∧
        (2 ≤ k + 1 → ys[k]? = some (direct_mean arithmetic_mean_functor 2
          (last_samples 2 ([(2 : ℚ), 4, 6].take (k + 1))))) :=
  ⟨by decide, C1_running_mean_refines_direct_mean arithmetic_mean_functor 2 (by decide) 0 [2, 4, 6]⟩

/-- C2 fails before the window is full: with `L = 2`, the arithmetic mean and the default
initial condition `0`, the first output on input `2` is `(0 + 2)/2 = 1`, while the mean
over the trailing `min(1, 2) = 1` input samples is `2`. -/
theorem C2_counterexample :
    ∃ g0 g, arithmetic_mean 2 (0 : ℚ) = .ok g0 ∧ g0.run [2] = .ok (g, [1]) ∧
      direct_mean arithmetic_mean_functor (min 1 2) (last_samples (min 1 2) [(2 : ℚ)]) = 2 ∧
      [(1 : ℚ)] ≠ [direct_mean arithmetic_mean_functor (min 1 2)
        (last_samples (min 1 2) [(2 : ℚ)])] := by
  refine ⟨{ functor_ := arithmetic_mean_functor, buffer_ := [0, 0], pmean_ := 0, L_ := 2, n_ := 0 },
    { functor_ := arithmetic_mean_functor, buffer_ := [1, 0], pmean_ := 1, L_ := 2, n_ := 1 },
    ?_, ?_, ?_, ?_⟩
  · simp [arithmetic_mean, generalized_mean.init, trivial_array.make, trivial_array.read,
      arithmetic_mean_functor, bind, Except.bind, pure, Except.pure, List.replicate]
  · simp [generalized_mean.run, generalized_mean.call, trivial_array.read, trivial_array.write,
      arithmetic_mean_functor, bind, Except.bind, pure, Except.pure]
  · simp [direct_mean, last_samples, arithmetic_mean_functor]
  · simp [direct_mean, last_samples, arithmetic_mean_functor]

/-- C2 (amended): for `L ≥ 1` the output of step `k + 1` is the root of `1/L` times the sum
of `power` over the trailing `min(k + 1, L)` inputs plus `L - min(k + 1, L)` times
`power(ic)`: the divisor is always `L` and the part of the window not yet filled counts as
`ic`. From step `L` on this is the direct generalized mean over the trailing
`min(k + 1, L) = L` inputs. -/
theorem C2_output_is_padded_window_mean {α : Type} [LinearOrderedField α]
    (f : mean_functor α) (L : Nat) (hL : 1 ≤ L) (ic : α) (xs : List α) :
    ∃ g0 g ys, generalized_mean.init L f ic = .ok g0 ∧ g0.run xs = .ok (g, ys) ∧
      ys.length = xs.length ∧
      ∀ k, k < xs.length →
        ys[k]? = some (f.root (1 / (L : α) *
          (((L - min (k + 1) L : Nat) : α) * f.power ic +
            ((last_samples (min (k + 1) L) (xs.take (k + 1))).map f.power).sum))) ∧
        (L ≤ k + 1 → ys[k]? = some (direct_mean f (min (k + 1) L)
          (last_samples (min (k + 1) L) (xs.take (k + 1))))) := by
  obtain ⟨g0, g, ys, h0, hr, hlen, hys⟩ := mean_run_window f L hL ic xs
  refine ⟨g0, g, ys, h0, hr, hlen, ?_⟩
  intro k hk
  have hlen1 : (xs.take (k + 1)).length = k + 1 := by
    rw [List.length_take]; omega
  have hmain : ys[k]? = some (f.root (1 / (L : α) *
      (((L - min (k + 1) L : Nat) : α) * f.power ic +
        ((last_samples (min (k + 1) L) (xs.take (k + 1))).map f.power).sum))) := by
    have hsub : L - (k + 1) = L - min (k + 1) L := by omega
    rw [hys k hk, sum_map_div, last_samples_pad, hlen1, List.map_append, List.sum_append,
      List.map_replicate, List.sum_replicate, nsmul_eq_mul, hsub]
  refine ⟨hmain, ?_⟩
  intro hLk
  rw [hmain, direct_mean, Nat.min_eq_right hLk]
  simp

/-- C2 (amended) at `L = 2`, the arithmetic mean over the rationals, `ic = 0`, input `2`. -/
theorem C2_output_is_padded_window_mean_witness :
    1 ≤ 2 ∧ ∃ g0 g ys, generalized_mean.init 2 arithmetic_mean_functor (0 : ℚ) = .ok g0 ∧
      g0.run [2] = .ok (g, ys) ∧ ys.length = [(2 : ℚ)].length ∧
      ∀ k, k < [(2 : ℚ)].length →
        ys[k]? = some (arithmetic_mean_functor.root (1 / ((2 : Nat) : ℚ) *
          (((2 - min (k + 1) 2 : Nat) : ℚ) * arithmetic_mean_functor.power 0 +
            ((last_samples (min (k + 1) 2) ([(2 : ℚ)].take (k + 1))).map
              arithmetic_mean_functor.power).sum))) ∧
        (2 ≤ k + 1 → ys[k]? = some (direct_mean arithmetic_mean_functor (min (k + 1) 2)
          (last_samples (min (k + 1) 2) ([(2 : ℚ)].take (k + 1))))) :=
  ⟨by decide, C2_output_is_padded_window_mean arithmetic_mean_functor 2 (by decide) 0 [2]⟩

/-! ## Limiter -/

theorem real_tanh_lt_one (x : ℝ) : Real.tanh x < 1 := by
  rw [Real.tanh_eq_sinh_div_cosh, div_lt_one (Real.cosh_pos x)]
  exact Real.sinh_lt_cosh x

theorem real_tanh_pos (x : ℝ) (hx : 0 < x) : 0 < Real.tanh x := by
  rw [Real.tanh_eq_sinh_div_cosh]
  exact div_pos (Real.sinh_pos_iff.mpr hx) (Real.cosh_pos x)

/-- Above the threshold the limiter returns `x` times the waveshaping gain. -/
theorem limiter_call_above {α : Type} [LinearOrderedField α] (l : limiter α) (x : α)
    (h : l.threshold_ < |x|) (hs : l.swing_ ≠ 0) (hx : x ≠ 0) :
    l.call x = some (x * ((l.threshold_ +
      l.functor_ ((|x| - l.threshold_) / l.swing_) * l.swing_) / |x|)) := by
  have ha : |x| ≠ 0 := abs_ne_zero.mpr hx
  simp [limiter.call, fdiv, not_le.mpr h, hs, ha]

/-- At or below the threshold the limiter returns its argument. -/
theorem limiter_call_below {α : Type} [LinearOrderedField α]
    (l : limiter α) (x : α) (h : |x| ≤ l.threshold_) : l.call x = some x := by
  simp [limiter.call, h]

/-- C3: for every limiter configuration and every sample `x` with `|x| ≤ threshold`, the
limiter returns `x` itself. -/
theorem C3_limiter_passes_below_threshold {α : Type} [LinearOrderedField α]
    (l : limiter α) (x : α) (h : |x| ≤ l.threshold_) : l.call x = some x :=
  limiter_call_below l x h

/-- C3 at threshold `1/2` and sample `-1/4`. -/
theorem C3_limiter_passes_below_threshold_witness :
    |(-1 / 4 : ℚ)| ≤ (limiter.set_threshold
        ({ functor_ := fun y => y, threshold_ := 0, swing_ := 0 } : limiter ℚ) (1 / 2)).threshold_ ∧
      (limiter.set_threshold
        ({ functor_ := fun y => y, threshold_ := 0, swing_ := 0 } : limiter ℚ) (1 / 2)).call (-1 / 4) = some (-1 / 4) :=
  ⟨by norm_num [limiter.set_threshold, abs_of_neg],
   C3_limiter_passes_below_threshold _ _ (by norm_num [limiter.set_threshold, abs_of_neg])⟩

/-- C4: for the limiter with the `tanh` nonlinearity and a threshold in `(0,1)` with
`swing = 1 - threshold`, every real sample `x` gives a finite output `y` with
`|y| ≤ threshold + swing = 1`. -/
theorem C4_limiter_output_at_most_full_scale (l : limiter ℝ) (hf : l.functor_ = Real.tanh)
    (ht0 : 0 < l.threshold_) (ht1 : l.threshold_ < 1) (hsw : l.swing_ = 1 - l.threshold_)
    (x : ℝ) :
    ∃ y, l.call x = some y ∧ |y| ≤ l.threshold_ + l.swing_ ∧ l.threshold_ + l.swing_ = 1 := by
  have hone : l.threshold_ + l.swing_ = 1 := by rw [hsw]; ring
  have hs : 0 < l.swing_ := by rw [hsw]; linarith
  by_cases h : |x| ≤ l.threshold_
  · exact ⟨x, limiter_call_below l x h, by linarith, hone⟩
  · have h1 : l.threshold_ < |x| := not_le.mp h
    have hx : x ≠ 0 := by
      intro h0
      rw [h0, abs_zero] at h1
      linarith
    have ha : 0 < |x| := abs_pos.mpr hx
    refine ⟨_, limiter_call_above l x h1 hs.ne' hx, ?_, hone⟩
    have hin : 0 < (|x| - l.threshold_) / l.swing_ := div_pos (by linarith) hs
    have h2 := real_tanh_lt_one ((|x| - l.threshold_) / l.swing_)
    have h3 := real_tanh_pos _ hin
    rw [hf]
    have hnum : 0 < l.threshold_ + Real.tanh ((|x| - l.threshold_) / l.swing_) * l.swing_ := by
      positivity
    rw [abs_mul, abs_div, abs_abs, abs_of_pos hnum, mul_div_cancel₀ _ ha.ne']
    nlinarith

/-- C4 at threshold `1/2` and sample `3`. -/
theorem C4_limiter_output_at_most_full_scale_witness :
    ∃ y, (limiter.set_threshold { functor_ := Real.tanh, threshold_ := 0, swing_ := 0 }
        (1 / 2 : ℝ)).call 3 = some y ∧
      |y| ≤ (limiter.set_threshold { functor_ := Real.tanh, threshold_ := 0, swing_ := 0 }
          (1 / 2 : ℝ)).threshold_ +
        (limiter.set_threshold { functor_ := Real.tanh, threshold_ := 0, swing_ := 0 }
          (1 / 2 : ℝ)).swing_ ∧
      (limiter.set_threshold { functor_ := Real.tanh, threshold_ := 0, swing_ := 0 }
          (1 / 2 : ℝ)).threshold_ +
        (limiter.set_threshold { functor_ := Real.tanh, threshold_ := 0, swing_ := 0 }
          (1 / 2 : ℝ)).swing_ = 1 :=
  C4_limiter_output_at_most_full_scale _ rfl (by norm_num [limiter.set_threshold])
    (by norm_num [limiter.set_threshold]) rfl 3

/-! ## Compressor: one call -/

/-- The result of `compressor::operator()` once the envelope detector has returned `e`. -/
theorem compressor_call_of_envelope {α : Type} [LinearOrderedField α] [FloorRing α]
    (pow : α → α → α) (log10 : α → α) (epsilon : α) (c : compressor α) (x : α) (w : Bool)
    (env : generalized_mean α) (e : α) (h : c.envelope_.call x = .ok (env, e)) :
    c.call pow log10 epsilon x w = .ok
      { state := { c with envelope_ := env, transition_ := c.adjust_transition |e| }
        sample := ((compressor.compute_gain pow c (c.adjust_transition |e|) |e|).map
          fun g => g * c.gain_).map fun g => g * x
        compression_dB := if w then some (compressor.telemetry log10 epsilon
          (compressor.compute_gain pow c (c.adjust_transition |e|) |e|)) else none } := by
  simp only [compressor.call, h]
  rfl

/-- A successful call of `compressor::operator()` went through a successful envelope step. -/
theorem compressor_call_inv {α : Type} [LinearOrderedField α] [FloorRing α]
    (pow : α → α → α) (log10 : α → α) (epsilon : α) (c : compressor α) (x : α) (w : Bool)
    (r : compressor.result α) (h : c.call pow log10 epsilon x w = .ok r) :
    ∃ env e, c.envelope_.call x = .ok (env, e) ∧
      r.state = { c with envelope_ := env, transition_ := c.adjust_transition |e| } := by
  cases he : c.envelope_.call x with
  | error f =>
    simp [compressor.call, he, bind, Except.bind] at h
  | ok p =>
    obtain ⟨env, e⟩ := p
    rw [compressor_call_of_envelope pow log10 epsilon c x w env e he] at h
    refine ⟨env, e, rfl, ?_⟩
    have := Except.ok.inj h
    rw [← this]

theorem compute_gain_unit_ratio {α : Type} [LinearOrderedField α] [FloorRing α]
    (pow : α → α → α) (c : compressor α) (t ref : α) (hr : c.ratio_ = 1)
    (ht : c.threshold_ ≠ 0) (hl : ref ≠ 0) : compressor.compute_gain pow c t ref = some 1 := by
  simp only [compressor.compute_gain, fdiv, hr, ht, hl, sub_self, mul_zero, add_zero,
    ne_eq, not_true_eq_false, if_false, Option.pure_def, Option.bind_eq_bind, Option.some_bind]
  congr 1
  field_simp

theorem compute_gain_zero_level {α : Type} [LinearOrderedField α] [FloorRing α]
    (pow : α → α → α) (c : compressor α) (t : α) :
    compressor.compute_gain pow c t 0 = none := by
  have hz : ∀ a : α, fdiv a 0 = none := fun a => by simp [fdiv]
  unfold compressor.compute_gain
  simp only [hz, Option.bind_eq_bind]
  cases fdiv 0 c.threshold_ with
  | none => rfl
  | some rel =>
    simp only [Option.some_bind]
    split_ifs with h
    · cases (fdiv 1 (1 + t * (c.ratio_ - 1))).bind fun e => std_pow pow rel e <;> rfl
    · rfl

/-- The gain in exact real arithmetic for a positive threshold and a positive level. -/
theorem compute_gain_real (c : compressor ℝ) (t ref : ℝ) (ht : 0 < c.threshold_)
    (hl : 0 < ref) (hr : 1 + t * (c.ratio_ - 1) ≠ 0) :
    compressor.compute_gain (fun a b => a ^ b) c t ref =
      some (c.threshold_ * (ref / c.threshold_) ^ (1 / (1 + t * (c.ratio_ - 1))) / ref) := by
  have hrel : 0 < ref / c.threshold_ := div_pos hl ht
  by_cases h1 : 1 + t * (c.ratio_ - 1) = 1
  · simp [compressor.compute_gain, fdiv, ht.ne', hl.ne', h1]
  · simp [compressor.compute_gain, fdiv, ht.ne', hl.ne', h1, hr, std_pow, hrel]


/-- C5 fails on the freshly constructed compressor, whose ratio is `1` and whose threshold
is `0`: on the sample `1` (envelope length `1`) the level `1` is divided by the threshold
`0`, and the returned sample is not the finite value `1 * makeup_gain`. -/
theorem C5_counterexample :
    ((compressor.init Real.sqrt 1).map fun c => (c.ratio_, c.threshold_, c.gain_)) =
        .ok (1, 0, 1) ∧
      ((compressor.init Real.sqrt 1 >>= fun c =>
          c.call (fun a b => a ^ b) (Real.logb 10) (2 ^ (-23 : ℤ)) 1 false).map
        fun r => r.sample) = .ok none := by
  constructor
  · simp [compressor.init, quadratic_mean, generalized_mean.init, trivial_array.make,
      trivial_array.read, bind, Except.bind, pure, Except.pure, Except.map]
  · simp [compressor.init, quadratic_mean, generalized_mean.init, trivial_array.make,
      trivial_array.read, bind, Except.bind, pure, Except.pure, Except.map, compressor.call,
      generalized_mean.call, trivial_array.write, quadratic_mean_functor,
      compressor.compute_gain, compressor.adjust_transition, fdiv]

/-- C5 (amended): for a compressor with ratio `1`, a threshold other than `0`, any attack,
release, makeup gain, transition and envelope contents, every call whose envelope level is
not `0` returns `x * makeup_gain`. -/
theorem C5_unit_ratio_is_transparent {α : Type} [LinearOrderedField α] [FloorRing α]
    (pow : α → α → α) (log10 : α → α) (epsilon : α) (c : compressor α) (x : α) (w : Bool)
    (env : generalized_mean α) (e : α) (hr : c.ratio_ = 1) (ht : c.threshold_ ≠ 0)
    (he : c.envelope_.call x = .ok (env, e)) (hl : e ≠ 0) :
    ∃ r, c.call pow log10 epsilon x w = .ok r ∧ r.sample = some (x * c.gain_) := by
  refine ⟨_, compressor_call_of_envelope pow log10 epsilon c x w env e he, ?_⟩
  have hl2 : |e| ≠ 0 := abs_ne_zero.mpr hl
  simp only [compute_gain_unit_ratio pow c _ _ hr ht hl2, Option.map_some']
  congr 1
  ring


/-- C5 (amended) at envelope length `1`, threshold `1/2`, makeup gain `2`, sample `1`. -/
theorem C5_unit_ratio_is_transparent_witness :
    ∃ r, compressor.call (fun a b => a ^ b) (Real.logb 10) (2 ^ (-23 : ℤ))
        ({ envelope_ := { functor_ := quadratic_mean_functor Real.sqrt, buffer_ := [0],
                          pmean_ := 0, L_ := 1, n_ := 0 },
           threshold_ := 1 / 2, gain_ := 2, ratio_ := 1, attack_delta_ := some 1,
           release_delta_ := some 1, transition_ := 0 } : compressor ℝ) 1 false = .ok r ∧
      r.sample = some (1 * 2) :=
  C5_unit_ratio_is_transparent (fun a b => a ^ b) (Real.logb 10) (2 ^ (-23 : ℤ)) _ 1 false
    { functor_ := quadratic_mean_functor Real.sqrt, buffer_ := [1], pmean_ := 1, L_ := 1, n_ := 0 }
    1 rfl (by norm_num)
    (by simp [generalized_mean.call, trivial_array.read, trivial_array.write,
          quadratic_mean_functor, bind, Except.bind, pure, Except.pure])
    (by norm_num)

/-! ## Compressor: the transition stays in the unit interval -/

theorem delta_of_count_nonneg {α : Type} [LinearOrderedField α] (n : Nat) (a : α)
    (h : delta_of_count n = some a) : 0 ≤ a := by
  unfold delta_of_count at h
  split_ifs at h
  have := Option.some.inj h
  rw [← this]
  positivity

theorem adjust_transition_bounds {α : Type} [LinearOrderedField α] (c : compressor α) (ref : α)
    (h0 : 0 ≤ c.transition_) (h1 : c.transition_ ≤ 1)
    (ha : ∀ a, c.attack_delta_ = some a → 0 ≤ a)
    (hr : ∀ a, c.release_delta_ = some a → 0 ≤ a) :
    0 ≤ c.adjust_transition ref ∧ c.adjust_transition ref ≤ 1 := by
  unfold compressor.adjust_transition
  split_ifs
  · cases hd : c.attack_delta_ with
    | none => simp
    | some a =>
      have := ha a hd
      exact ⟨le_min zero_le_one (by linarith), min_le_left _ _⟩
  · cases hd : c.release_delta_ with
    | none => simp
    | some a =>
      have := hr a hd
      exact ⟨le_max_left _ _, max_le zero_le_one (by linarith)⟩
  · exact ⟨h0, h1⟩

/-- In every reachable state the transition is in `[0,1]` and the finite step sizes are
not negative. -/
theorem reachable_bounds {α : Type} [LinearOrderedField α] [FloorRing α]
    (sqrt : α → α) (pow : α → α → α) (log10 : α → α) (epsilon : α) (c : compressor α)
    (h : compressor.reachable sqrt pow log10 epsilon c) :
    (0 ≤ c.transition_ ∧ c.transition_ ≤ 1) ∧
      (∀ a, c.attack_delta_ = some a → 0 ≤ a) ∧ (∀ a, c.release_delta_ = some a → 0 ≤ a) := by
  induction h with
  | init L c hc =>
    cases hq : quadratic_mean sqrt L 0 with
    | error f => simp [compressor.init, hq, bind, Except.bind] at hc
    | ok g =>
      simp only [compressor.init, hq, bind, Except.bind, pure, Except.pure] at hc
      have := Except.ok.inj hc
      subst this
      refine ⟨⟨le_rfl, zero_le_one⟩, ?_, ?_⟩ <;>
      · intro a ha
        have := Option.some.inj ha
        rw [← this]
        exact zero_le_one
  | set_threshold_dB c t _ ih => exact ih
  | set_threshold c t _ ih => exact ih
  | set_gain_dB c g _ ih => exact ih
  | set_gain c g _ ih => exact ih
  | set_ratio c r _ ih => exact ih
  | set_attack c n _ ih =>
    exact ⟨ih.1, fun a ha => delta_of_count_nonneg n a ha, ih.2.2⟩
  | set_release c n _ ih =>
    exact ⟨ih.1, ih.2.1, fun a ha => delta_of_count_nonneg n a ha⟩
  | call c x w r _ hcall ih =>
    obtain ⟨env, e, _, hst⟩ := compressor_call_inv pow log10 epsilon c x w r hcall
    rw [hst]
    exact ⟨adjust_transition_bounds c |e| ih.1.1 ih.1.2 ih.2.1 ih.2.2, ih.2.1, ih.2.2⟩

/-- C6: in every reachable compressor state (after construction and after any interleaving
of setter calls and `operator()` calls on arbitrary samples) `0 ≤ transition ≤ 1`. -/
theorem C6_transition_in_unit_interval {α : Type} [LinearOrderedField α] [FloorRing α]
    (sqrt : α → α) (pow : α → α → α) (log10 : α → α) (epsilon : α) (c : compressor α)
    (h : compressor.reachable sqrt pow log10 epsilon c) :
    0 ≤ c.transition_ ∧ c.transition_ ≤ 1 :=
  (reachable_bounds sqrt pow log10 epsilon c h).1

/-- C6 on the state reached by constructing with envelope length `1`, then `set_attack(0)`,
`set_threshold(1/2)` and one call on the sample `1`. -/
theorem C6_transition_in_unit_interval_witness :
    0 ≤ ({ envelope_ := { functor_ := quadratic_mean_functor Real.sqrt, buffer_ := [1],
                          pmean_ := 1, L_ := 1, n_ := 0 },
           threshold_ := 1 / 2, gain_ := 1, ratio_ := 1, attack_delta_ := none,
           release_delta_ := some 1, transition_ := 1 } : compressor ℝ).transition_ ∧
      ({ envelope_ := { functor_ := quadratic_mean_functor Real.sqrt, buffer_ := [1],
                        pmean_ := 1, L_ := 1, n_ := 0 },
         threshold_ := 1 / 2, gain_ := 1, ratio_ := 1, attack_delta_ := none,
         release_delta_ := some 1, transition_ := 1 } : compressor ℝ).transition_ ≤ 1 :=
  C6_transition_in_unit_interval Real.sqrt (fun a b => a ^ b) (Real.logb 10) (2 ^ (-23 : ℤ)) _
    (compressor.reachable.call
      ({ envelope_ := { functor_ := quadratic_mean_functor Real.sqrt, buffer_ := [0],
                        pmean_ := 0, L_ := 1, n_ := 0 },
         threshold_ := 1 / 2, gain_ := 1, ratio_ := 1, attack_delta_ := none,
         release_delta_ := some 1, transition_ := 0 } : compressor ℝ) 1 false
      { state := { envelope_ := { functor_ := quadratic_mean_functor Real.sqrt, buffer_ := [1],
                                  pmean_ := 1, L_ := 1, n_ := 0 },
                   threshold_ := 1 / 2, gain_ := 1, ratio_ := 1, attack_delta_ := none,
                   release_delta_ := some 1, transition_ := 1 },
        sample := some 1, compression_dB := none }
      (compressor.reachable.set_threshold _ (1 / 2)
        (compressor.reachable.set_attack _ 0
          (compressor.reachable.init 1
            { envelope_ := { functor_ := quadratic_mean_functor Real.sqrt, buffer_ := [0],
                             pmean_ := 0, L_ := 1, n_ := 0 },
              threshold_ := 0, gain_ := 1, ratio_ := 1, attack_delta_ := some 1,
              release_delta_ := some 1, transition_ := 0 }
            (by simp [compressor.init, quadratic_mean, generalized_mean.init,
                  trivial_array.make, trivial_array.read, bind, Except.bind, pure,
                  Except.pure, quadratic_mean_functor]))))
      (by norm_num [compressor.call, generalized_mean.call, trivial_array.read,
            trivial_array.write, quadratic_mean_functor, bind, Except.bind, pure, Except.pure,
            compressor.compute_gain, compressor.adjust_transition, fdiv,
            compressor.set_threshold, compressor.set_attack, delta_of_count]))


/-! ## Compressor: the gain law -/

/-- C7: for `threshold > 0` and envelope level `|e| > 0` (`e` the envelope detector's output
for this step), with `r = 1 + t * (ratio - 1)` not zero, `t` being the transition after this
step's update, the call returns `makeup_gain * threshold * (level/threshold)^(1/r) / level * x`;
the level relative to the threshold after the gain, in decibels, is the one before it
divided by `r`. -/
theorem C7_gain_law (log10 : ℝ → ℝ) (epsilon : ℝ) (c : compressor ℝ) (x : ℝ) (w : Bool)
    (env : generalized_mean ℝ) (e : ℝ) (ht : 0 < c.threshold_)
    (he : c.envelope_.call x = .ok (env, e)) (hl : 0 < |e|)
    (hr : 1 + c.adjust_transition |e| * (c.ratio_ - 1) ≠ 0) :
    ∃ r, c.call (fun a b => a ^ b) log10 epsilon x w = .ok r ∧
      r.state.transition_ = c.adjust_transition |e| ∧
      r.sample = some (c.gain_ * c.threshold_ *
        (|e| / c.threshold_) ^ (1 / (1 + r.state.transition_ * (c.ratio_ - 1))) / |e| * x) ∧
      20 * Real.logb 10 ((c.threshold_ *
          (|e| / c.threshold_) ^ (1 / (1 + r.state.transition_ * (c.ratio_ - 1))) / |e|) *
            |e| / c.threshold_) =
        20 * Real.logb 10 (|e| / c.threshold_) / (1 + r.state.transition_ * (c.ratio_ - 1)) := by
  refine ⟨_, compressor_call_of_envelope _ log10 epsilon c x w env e he, rfl, ?_, ?_⟩
  · simp only [compute_gain_real c _ _ ht hl hr, Option.map_some']
    congr 1
    ring
  · have hrel : 0 < |e| / c.threshold_ := div_pos hl ht
    have h1 : c.threshold_ *
        (|e| / c.threshold_) ^ (1 / (1 + c.adjust_transition |e| * (c.ratio_ - 1))) / |e| *
          |e| / c.threshold_ =
        (|e| / c.threshold_) ^ (1 / (1 + c.adjust_transition |e| * (c.ratio_ - 1))) := by
      field_simp
    simp only [h1, Real.logb_rpow_eq_mul_logb_of_pos hrel]
    ring

/-- C7 at envelope length `1`, threshold `1/2`, ratio `4`, makeup gain `2`, attack of one
sample, transition `0`, sample `1`: the level is `1`, the transition becomes `1`. -/
theorem C7_gain_law_witness :
    ∃ r, compressor.call (fun a b => a ^ b) (Real.logb 10) (2 ^ (-23 : ℤ))
        ({ envelope_ := { functor_ := quadratic_mean_functor Real.sqrt, buffer_ := [0],
                          pmean_ := 0, L_ := 1, n_ := 0 },
           threshold_ := 1 / 2, gain_ := 2, ratio_ := 4, attack_delta_ := some 1,
           release_delta_ := some 1, transition_ := 0 } : compressor ℝ) 1 false = .ok r ∧
      r.state.transition_ = 1 ∧
      r.sample = some (2 * (1 / 2) *
        (|(1 : ℝ)| / (1 / 2)) ^ (1 / (1 + r.state.transition_ * (4 - 1))) / |(1 : ℝ)| * 1) := by
  obtain ⟨r, h1, h2, h3, _⟩ := C7_gain_law (Real.logb 10) (2 ^ (-23 : ℤ))
    ({ envelope_ := { functor_ := quadratic_mean_functor Real.sqrt, buffer_ := [0],
                      pmean_ := 0, L_ := 1, n_ := 0 },
       threshold_ := 1 / 2, gain_ := 2, ratio_ := 4, attack_delta_ := some 1,
       release_delta_ := some 1, transition_ := 0 } : compressor ℝ) 1 false
    { functor_ := quadratic_mean_functor Real.sqrt, buffer_ := [1], pmean_ := 1, L_ := 1, n_ := 0 }
    1 (by norm_num)
    (by simp [generalized_mean.call, trivial_array.read, trivial_array.write,
          quadratic_mean_functor, bind, Except.bind, pure, Except.pure])
    (by norm_num)
    (by norm_num [compressor.adjust_transition])
  refine ⟨r, h1, ?_, h3⟩
  rw [h2]
  norm_num [compressor.adjust_transition]

/-- C8 fails on silence: with envelope length `1`, threshold `1/10` and the sample `0` the
level is `0`, the gain `threshold * rel / level` is a division by zero, so neither the
returned sample nor the value written through `compression_dB` is a finite number (the
claim has `makeup_gain * 0 = 0` and `0` dB there). -/
theorem C8_silence_divides_by_zero :
    (((compressor.init Real.sqrt 1).map fun c => c.set_threshold (1 / 10)) >>= fun c =>
        c.call (fun a b => a ^ b) (Real.logb 10) (2 ^ (-23 : ℤ)) 0 true).map
      (fun r => (r.sample, r.compression_dB)) = .ok (none, some none) := by
  simp [compressor.init, quadratic_mean, generalized_mean.init, trivial_array.make,
    trivial_array.read, bind, Except.bind, pure, Except.pure, Except.map, compressor.call,
    generalized_mean.call, trivial_array.write, quadratic_mean_functor,
    compressor.set_threshold, compute_gain_zero_level, compressor.telemetry]


/-! ## Compressor: response to a step from silence -/

/-- Processing `xs` and then one more sample `x`. -/
theorem compressor_run_snoc {α : Type} [LinearOrderedField α] [FloorRing α]
    (pow : α → α → α) (log10 : α → α) (epsilon : α) (x : α) :
    ∀ (xs : List α) (c c1 : compressor α) (ys : List (Option α)) (r : compressor.result α),
      compressor.run pow log10 epsilon c xs = .ok (c1, ys) →
      c1.call pow log10 epsilon x false = .ok r →
      compressor.run pow log10 epsilon c (xs ++ [x]) = .ok (r.state, ys ++ [r.sample]) := by
  intro xs
  induction xs with
  | nil =>
    intro c c1 ys r h1 h2
    simp only [compressor.run, pure, Except.pure] at h1
    obtain ⟨rfl, rfl⟩ := Prod.mk.inj (Except.ok.inj h1)
    simp [compressor.run, h2, bind, Except.bind, pure, Except.pure]
  | cons a xs ih =>
    intro c c1 ys r h1 h2
    rw [compressor.run] at h1
    cases ha : c.call pow log10 epsilon a false with
    | error f => simp [ha, bind, Except.bind] at h1
    | ok ra =>
      cases hb : compressor.run pow log10 epsilon ra.state xs with
      | error f => simp [ha, hb, bind, Except.bind] at h1
      | ok p =>
        obtain ⟨c2, ys2⟩ := p
        simp only [ha, hb, bind, Except.bind, pure, Except.pure] at h1
        obtain ⟨rfl, rfl⟩ := Prod.mk.inj (Except.ok.inj h1)
        have := ih ra.state c2 ys2 r hb h2
        simp [compressor.run, ha, this, bind, Except.bind, pure, Except.pure]

/-- The sum of squares over `L` in the window after `i` samples of the step. -/
theorem step_window_sum {α : Type} [LinearOrderedField α] (k L : Nat) (hL : 0 < L) (x : α) :
    ∀ i, ∑ j in Finset.Ico (k + i) (k + i + L),
        (step_stream (k + L) x j * step_stream (k + L) x j) / (L : α) =
      ((min i L : Nat) : α) * (x * x) / (L : α) := by
  intro i
  induction i with
  | zero =>
    have : ∀ j ∈ Finset.Ico (k + 0) (k + 0 + L),
        (step_stream (k + L) x j * step_stream (k + L) x j) / (L : α) = 0 := by
      intro j hj
      have hj2 : j < k + L := by simpa using (Finset.mem_Ico.mp hj).2
      simp [step_stream, hj2]
    rw [Finset.sum_congr rfl this]
    simp
  | succ i ih =>
    have hshift : ∑ j in Finset.Ico (k + (i + 1)) (k + (i + 1) + L),
          (step_stream (k + L) x j * step_stream (k + L) x j) / (L : α) =
        ∑ j in Finset.Ico (k + i) (k + i + L),
          (step_stream (k + L) x j * step_stream (k + L) x j) / (L : α)
        - (step_stream (k + L) x (k + i) * step_stream (k + L) x (k + i)) / (L : α)
        + (step_stream (k + L) x (k + i + L) * step_stream (k + L) x (k + i + L)) / (L : α) := by
      rw [Finset.sum_eq_sum_Ico_succ_bot (by omega : k + i < k + i + L),
        show k + (i + 1) + L = (k + i + L) + 1 by omega,
        Finset.sum_Ico_succ_top (by omega : k + (i + 1) ≤ k + i + L),
        show k + (i + 1) = k + i + 1 by omega]
      ring
    rw [hshift, ih]
    have hnew : step_stream (k + L) x (k + i + L) = x := by
      simp [step_stream]
    by_cases hi : i < L
    · have hold : step_stream (k + L) x (k + i) = 0 := by
        simp [step_stream, hi]
      rw [hnew, hold, Nat.min_eq_left (by omega : i ≤ L), Nat.min_eq_left (by omega : i + 1 ≤ L)]
      push_cast
      ring
    · have hold : step_stream (k + L) x (k + i) = x := by
        simp [step_stream, hi]
      rw [hnew, hold, Nat.min_eq_right (by omega : L ≤ i),
        Nat.min_eq_right (by omega : L ≤ i + 1)]
      ring


/-- One call on the next sample of a step from silence: the envelope level is the root of
`min(m + 1, L) * x² / L`. -/
theorem compressor_call_on_step (pow : ℝ → ℝ → ℝ) (log10 : ℝ → ℝ) (epsilon : ℝ)
    (L : Nat) (hL : 0 < L) (k m : Nat) (x : ℝ) (c : compressor ℝ)
    (henv : mean_inv (quadratic_mean_functor Real.sqrt) L (step_stream (k + L) x) (k + m)
      c.envelope_) :
    ∃ env, mean_inv (quadratic_mean_functor Real.sqrt) L (step_stream (k + L) x) (k + (m + 1))
        env ∧
      c.call pow log10 epsilon x false = .ok
        { state := { c with
            envelope_ := env
            transition_ := (c.adjust_transition
              (Real.sqrt (((min (m + 1) L : Nat) : ℝ) * (x * x) / (L : ℝ)))) }
          sample := ((compressor.compute_gain pow c (c.adjust_transition
              (Real.sqrt (((min (m + 1) L : Nat) : ℝ) * (x * x) / (L : ℝ))))
              (Real.sqrt (((min (m + 1) L : Nat) : ℝ) * (x * x) / (L : ℝ)))).map
            fun g => g * c.gain_).map fun g => g * x
          compression_dB := none } := by
  obtain ⟨env, hcall, hinv⟩ := mean_inv_call _ L hL _ (k + m) c.envelope_ henv
  have hx : step_stream (k + L) x (k + m + L) = x := by simp [step_stream]
  have hsum := step_window_sum k L hL x (m + 1)
  rw [show k + (m + 1) = k + m + 1 from rfl] at hsum
  have hroot : (quadratic_mean_functor Real.sqrt).root
      (∑ j in Finset.Ico (k + m + 1) (k + m + 1 + L),
        (quadratic_mean_functor Real.sqrt).power (step_stream (k + L) x j) / (L : ℝ)) =
      Real.sqrt (((min (m + 1) L : Nat) : ℝ) * (x * x) / (L : ℝ)) := by
    show Real.sqrt _ = _
    congr 1
  rw [hx, hroot] at hcall
  refine ⟨env, hinv, ?_⟩
  rw [compressor_call_of_envelope pow log10 epsilon c x false env _ hcall,
    abs_of_nonneg (Real.sqrt_nonneg _)]
  rfl


theorem step_level_low (L k0 m : Nat) (hL : 0 < L) (x thr : ℝ) (ht : 0 < thr)
    (hm : m + 1 ≤ k0) (hk0 : k0 < L) (hlow : (k0 : ℝ) * (x * x) ≤ (L : ℝ) * (thr * thr)) :
    Real.sqrt (((min (m + 1) L : Nat) : ℝ) * (x * x) / (L : ℝ)) ≤ thr := by
  have hLr : (0 : ℝ) < (L : ℝ) := by exact_mod_cast hL
  rw [Real.sqrt_le_iff]
  refine ⟨ht.le, ?_⟩
  rw [Nat.min_eq_left (by omega : m + 1 ≤ L), div_le_iff₀ hLr]
  have h1 : ((m + 1 : Nat) : ℝ) ≤ (k0 : ℝ) := by exact_mod_cast hm
  have h2 : ((m + 1 : Nat) : ℝ) * (x * x) ≤ (k0 : ℝ) * (x * x) :=
    mul_le_mul_of_nonneg_right h1 (mul_self_nonneg x)
  nlinarith

theorem step_level_high (L k0 m : Nat) (hL : 0 < L) (x thr : ℝ) (ht : 0 < thr)
    (hm : k0 ≤ m) (hk0 : k0 < L)
    (hhigh : (L : ℝ) * (thr * thr) < ((k0 : ℝ) + 1) * (x * x)) :
    thr < Real.sqrt (((min (m + 1) L : Nat) : ℝ) * (x * x) / (L : ℝ)) := by
  have hLr : (0 : ℝ) < (L : ℝ) := by exact_mod_cast hL
  rw [Real.lt_sqrt ht.le, lt_div_iff₀ hLr]
  have h1 : (k0 : ℝ) + 1 ≤ ((min (m + 1) L : Nat) : ℝ) := by
    have : k0 + 1 ≤ min (m + 1) L := by
      rw [Nat.le_min]; omega
    exact_mod_cast this
  have h2 : ((k0 : ℝ) + 1) * (x * x) ≤ ((min (m + 1) L : Nat) : ℝ) * (x * x) :=
    mul_le_mul_of_nonneg_right h1 (mul_self_nonneg x)
  nlinarith

/-- A compressor at rest on silence (transition `0`, envelope window all zeros) fed `m`
samples of the constant `x`: processing succeeds, the configuration is unchanged, and the
transition is `min(1, (m - k0)/A)`, `k0` being the number of leading samples of the step
whose level does not exceed the threshold. -/
theorem step_response (pow : ℝ → ℝ → ℝ) (log10 : ℝ → ℝ) (epsilon : ℝ)
    (L : Nat) (hL : 0 < L) (k : Nat) (x : ℝ) (A k0 : Nat) (c0 : compressor ℝ)
    (henv : mean_inv (quadratic_mean_functor Real.sqrt) L (step_stream (k + L) x) k
      c0.envelope_)
    (ht : 0 < c0.threshold_) (ht0 : c0.transition_ = 0) (hA : 1 ≤ A)
    (hatt : c0.attack_delta_ = some (1 / (A : ℝ)))
    (hrel : ∀ a, c0.release_delta_ = some a → 0 ≤ a)
    (hk0 : k0 < L)
    (hlow : (k0 : ℝ) * (x * x) ≤ (L : ℝ) * (c0.threshold_ * c0.threshold_))
    (hhigh : (L : ℝ) * (c0.threshold_ * c0.threshold_) < ((k0 : ℝ) + 1) * (x * x)) :
    ∀ m, ∃ c1 ys, compressor.run pow log10 epsilon c0 (List.replicate m x) = .ok (c1, ys) ∧
      ys.length = m ∧
      mean_inv (quadratic_mean_functor Real.sqrt) L (step_stream (k + L) x) (k + m)
        c1.envelope_ ∧
      c1.threshold_ = c0.threshold_ ∧ c1.gain_ = c0.gain_ ∧ c1.ratio_ = c0.ratio_ ∧
      c1.attack_delta_ = c0.attack_delta_ ∧ c1.release_delta_ = c0.release_delta_ ∧
      c1.transition_ = min 1 (((m - k0 : Nat) : ℝ) / (A : ℝ)) := by
  have hAr : (0 : ℝ) < (A : ℝ) := by exact_mod_cast hA
  intro m
  induction m with
  | zero =>
    refine ⟨c0, [], rfl, rfl, henv, rfl, rfl, rfl, rfl, rfl, ?_⟩
    simp [ht0]
  | succ m ih =>
    obtain ⟨c1, ys, hrun, hlen, hinv, hthr, hg, hrat, ha, hr, htr⟩ := ih
    obtain ⟨env, hinv1, hcall⟩ := compressor_call_on_step pow log10 epsilon L hL k m x c1 hinv
    have hrun1 := compressor_run_snoc pow log10 epsilon x _ c0 c1 ys _ hrun hcall
    rw [← List.replicate_succ'] at hrun1
    refine ⟨_, _, hrun1, by simp [hlen], hinv1, hthr, hg, hrat, ha, hr, ?_⟩
    show c1.adjust_transition _ = _
    unfold compressor.adjust_transition
    rw [hthr, ha, hatt, htr]
    by_cases hm : k0 ≤ m
    · have hlev := step_level_high L k0 m hL x c0.threshold_ ht hm hk0 hhigh
      rw [if_pos hlev]
      dsimp only
      have e1 : ((m + 1 - k0 : Nat) : ℝ) = ((m - k0 : Nat) : ℝ) + 1 := by
        have : m + 1 - k0 = (m - k0) + 1 := by omega
        rw [this]; push_cast; ring
      rw [e1, add_div]
      have hnn : (0 : ℝ) ≤ 1 / (A : ℝ) := by positivity
      rcases le_total 1 (((m - k0 : Nat) : ℝ) / (A : ℝ)) with h | h
      · have h2 : (1 : ℝ) ≤ 1 + 1 / (A : ℝ) := by linarith
        have h3 : (1 : ℝ) ≤ ((m - k0 : Nat) : ℝ) / (A : ℝ) + 1 / (A : ℝ) := by linarith
        rw [min_eq_left h, min_eq_left h2, min_eq_left h3]
      · rw [min_eq_right h]
    · have hlev := step_level_low L k0 m hL x c0.threshold_ ht (by omega) hk0 hlow
      rw [if_neg (not_lt.mpr hlev)]
      have e0 : m - k0 = 0 := by omega
      have e1 : m + 1 - k0 = 0 := by omega
      rw [e0, e1]
      simp only [Nat.cast_zero, zero_div, min_eq_right zero_le_one]
      split_ifs
      · rw [hr]
        cases hd : c0.release_delta_ with
        | none => rfl
        | some a =>
          have := hrel a hd
          simp [this]
      · rfl


/-- An estimator whose window holds zeros only is in the state reached over a silent
stream, whatever the position `n0` of its cursor. -/
theorem mean_inv_silent {α : Type} [LinearOrderedField α] (sqrt : α → α) (L n0 : Nat)
    (hn0 : n0 < L) (s : Nat → α) (hs : ∀ j, j < n0 + L → s j = 0) :
    mean_inv (quadratic_mean_functor sqrt) L s n0
      { functor_ := quadratic_mean_functor sqrt, buffer_ := List.replicate L 0, pmean_ := 0,
        L_ := L, n_ := n0 } := by
  refine ⟨rfl, rfl, by simp, (Nat.mod_eq_of_lt hn0).symm, ?_, ?_⟩
  · intro j _ hj
    have hlt : j % L < L := Nat.mod_lt _ (by omega)
    simp [List.getElem?_replicate, hlt, hs j hj, quadratic_mean_functor]
  · have : ∀ j ∈ Finset.Ico n0 (n0 + L),
        (quadratic_mean_functor sqrt).power (s j) / (L : α) = 0 := by
      intro j hj
      have hj2 : j < n0 + L := (Finset.mem_Ico.mp hj).2
      simp [hs j hj2, quadratic_mean_functor]
    rw [Finset.sum_congr rfl this]
    simp

/-- The number `k0` of leading samples of a step to `x` whose level stays at or below the
threshold: the level `sqrt(j * x² / L)` of sample `j` exceeds `thr` exactly from
`j = k0 + 1` on. -/
theorem exists_onset (L : Nat) (hL : 0 < L) (x thr : ℝ) (ht : 0 < thr) (hx : thr < |x|) :
    ∃ k0, k0 < L ∧ (k0 : ℝ) * (x * x) ≤ (L : ℝ) * (thr * thr) ∧
      (L : ℝ) * (thr * thr) < ((k0 : ℝ) + 1) * (x * x) := by
  have hLr : (0 : ℝ) < (L : ℝ) := by exact_mod_cast hL
  have hsq : thr * thr < x * x := by
    rw [← abs_mul_abs_self x]
    exact mul_self_lt_mul_self ht.le hx
  have hex : ∃ j : Nat, (L : ℝ) * (thr * thr) < ((j : ℝ) + 1) * (x * x) := by
    refine ⟨L - 1, ?_⟩
    have : ((L - 1 : Nat) : ℝ) + 1 = (L : ℝ) := by
      have h : L - 1 + 1 = L := by omega
      exact_mod_cast h
    rw [this]
    exact mul_lt_mul_of_pos_left hsq hLr
  classical
  refine ⟨Nat.find hex, ?_, ?_, Nat.find_spec hex⟩
  · have hle : Nat.find hex ≤ L - 1 := Nat.find_le (by
      have : ((L - 1 : Nat) : ℝ) + 1 = (L : ℝ) := by
        have h : L - 1 + 1 = L := by omega
        exact_mod_cast h
      rw [this]
      exact mul_lt_mul_of_pos_left hsq hLr)
    omega
  · rcases Nat.eq_zero_or_pos (Nat.find hex) with h0 | hpos
    · rw [h0]
      have : (0 : ℝ) ≤ (L : ℝ) * (thr * thr) := by positivity
      simpa using this
    · have hmin := Nat.find_min hex (by omega : Nat.find hex - 1 < Nat.find hex)
      have hc : ((Nat.find hex - 1 : Nat) : ℝ) + 1 = (Nat.find hex : ℝ) := by
        have h : Nat.find hex - 1 + 1 = Nat.find hex := by omega
        exact_mod_cast h
      rw [hc] at hmin
      exact not_lt.mp hmin


/-- C9: a freshly constructed compressor with envelope length `L ≥ 1`, threshold `thr > 0`,
ratio `ρ ≥ 1`, attack of `A ≥ 1` samples, any release count `R` and makeup gain `g`, fed the
constant `x` with `|x| > thr`: after every `n ≥ L + A` samples the transition is `1`, the
effective ratio is `ρ`, and the sample returned last is
`g * sign(x) * thr * (|x|/thr)^(1/ρ)`. -/
theorem C9_sustained_level_reaches_full_ratio (log10 : ℝ → ℝ) (epsilon : ℝ) (L : Nat)
    (hL : 1 ≤ L) (thr ρ g x : ℝ) (A R : Nat) (ht : 0 < thr) (hρ : 1 ≤ ρ) (hA : 1 ≤ A)
    (hx : thr < |x|) :
    ∃ c, compressor.init Real.sqrt L = .ok c ∧ ∀ n, L + A ≤ n →
      ∃ c1 ys, compressor.run (fun a b => a ^ b) log10 epsilon
          (((((c.set_threshold thr).set_ratio ρ).set_attack A).set_release R).set_gain g)
          (List.replicate n x) = .ok (c1, ys) ∧
        c1.transition_ = 1 ∧ 1 + c1.transition_ * (c1.ratio_ - 1) = ρ ∧
        ys[n - 1]? = some (some (g * Real.sign x * thr * (|x| / thr) ^ (1 / ρ))) := by
  have hLr : (0 : ℝ) < (L : ℝ) := by exact_mod_cast hL
  have hAr : (0 : ℝ) < (A : ℝ) := by exact_mod_cast hA
  have hA0 : A ≠ 0 := by omega
  have hxa : 0 < |x| := lt_trans ht hx
  obtain ⟨g0, hg0, hinv0⟩ := mean_inv_init (quadratic_mean_functor Real.sqrt) L hL (0 : ℝ)
    (step_stream (0 + L) x) (by
      intro j hj
      simp [step_stream, hj])
  have hinit : compressor.init Real.sqrt L = .ok
      { envelope_ := g0, threshold_ := 0, gain_ := 1, ratio_ := 1, attack_delta_ := some 1,
        release_delta_ := some 1, transition_ := 0 } := by
    simp [compressor.init, quadratic_mean, hg0, bind, Except.bind, pure, Except.pure]
  refine ⟨_, hinit, ?_⟩
  intro n hn
  generalize hc0 : compressor.set_gain (compressor.set_release (compressor.set_attack
    (compressor.set_ratio (compressor.set_threshold
      { envelope_ := g0, threshold_ := 0, gain_ := 1, ratio_ := 1, attack_delta_ := some 1,
        release_delta_ := some 1, transition_ := 0 } thr) ρ) A) R) g = c0
  have h0env : c0.envelope_ = g0 := by rw [← hc0]; rfl
  have h0thr : c0.threshold_ = thr := by rw [← hc0]; rfl
  have h0gain : c0.gain_ = g := by rw [← hc0]; rfl
  have h0rat : c0.ratio_ = ρ := by rw [← hc0]; rfl
  have h0tr : c0.transition_ = 0 := by rw [← hc0]; rfl
  have h0att : c0.attack_delta_ = some (1 / (A : ℝ)) := by
    rw [← hc0]
    simp [compressor.set_gain, compressor.set_release, compressor.set_attack,
      delta_of_count, hA0]
  have h0rel : c0.release_delta_ = delta_of_count R := by rw [← hc0]; rfl
  obtain ⟨k0, hk0, hlow, hhigh⟩ := exists_onset L hL x thr ht hx
  obtain ⟨m, rfl⟩ : ∃ m, n = m + 1 := ⟨n - 1, by omega⟩
  obtain ⟨c1, ys, hrun, hlen, hinv, hthr, hg, hrat, ha, hr, htr⟩ :=
    step_response (fun a b => a ^ b) log10 epsilon L hL 0 x A k0 c0
      (by rw [h0env]; exact hinv0) (by rw [h0thr]; exact ht) h0tr hA h0att
      (fun a h => delta_of_count_nonneg R a (by rw [← h0rel]; exact h)) hk0
      (by rw [h0thr]; exact hlow) (by rw [h0thr]; exact hhigh) m
  obtain ⟨env, _, hcall⟩ := compressor_call_on_step (fun a b => a ^ b) log10 epsilon L hL 0 m x
    c1 hinv
  have hrun1 := compressor_run_snoc (fun a b => a ^ b) log10 epsilon x _ _ c1 ys _ hrun hcall
  rw [← List.replicate_succ'] at hrun1
  have hlev : Real.sqrt (((min (m + 1) L : Nat) : ℝ) * (x * x) / (L : ℝ)) = |x| := by
    rw [Nat.min_eq_right (by omega : L ≤ m + 1), mul_comm, mul_div_assoc, div_self hLr.ne',
      mul_one, Real.sqrt_mul_self_eq_abs]
  have htm : c1.transition_ = 1 := by
    rw [htr]
    apply min_eq_left
    rw [le_div_iff₀ hAr, one_mul]
    have : A ≤ m - k0 := by omega
    exact_mod_cast this
  have hadj : c1.adjust_transition |x| = 1 := by
    unfold compressor.adjust_transition
    rw [hthr, ha, htm]
    rw [h0thr, h0att, if_pos hx]
    have : (0 : ℝ) ≤ 1 / (A : ℝ) := by positivity
    exact min_eq_left (by linarith)
  rw [hlev, hadj] at hrun1
  have hthr1 : c1.threshold_ = thr := by rw [hthr, h0thr]
  have hrat1 : c1.ratio_ = ρ := by rw [hrat, h0rat]
  have hg1 : c1.gain_ = g := by rw [hg, h0gain]
  have hρ0 : (1 : ℝ) + 1 * (c1.ratio_ - 1) ≠ 0 := by rw [hrat1]; linarith
  have hgain := compute_gain_real c1 1 |x| (by rw [hthr1]; exact ht) hxa hρ0
  rw [hgain] at hrun1
  refine ⟨_, _, hrun1, rfl, ?_, ?_⟩
  · show 1 + 1 * (c1.ratio_ - 1) = ρ
    rw [hrat1]; ring
  · have hidx : m + 1 - 1 = ys.length := by omega
    rw [hidx, List.getElem?_concat_length]
    simp only [Option.map_some', hthr1, hrat1, hg1]
    congr 2
    have hone : (1 : ℝ) + 1 * (ρ - 1) = ρ := by ring
    rw [hone]
    rcases lt_or_gt_of_ne (abs_pos.mp hxa) with hneg | hpos
    · have hx0 : x ≠ 0 := hneg.ne
      have hnx : -x ≠ 0 := neg_ne_zero.mpr hx0
      rw [Real.sign_of_neg hneg, abs_of_neg hneg]
      generalize (-x / thr) ^ (1 / ρ) = P
      rw [div_mul_eq_mul_div, div_mul_eq_mul_div, div_eq_iff hnx]
      ring
    · have hx0 : x ≠ 0 := hpos.ne'
      rw [Real.sign_of_pos hpos, abs_of_pos hpos]
      field_simp
      ring

/-- C9 on the scenario of the specification: envelope length `40`, threshold `1/10`,
ratio `4`, attack `10` samples, release `50` samples, constant input `1/2`. -/
theorem C9_sustained_level_reaches_full_ratio_witness :
    ∃ c, compressor.init Real.sqrt 40 = .ok c ∧ ∀ n, 40 + 10 ≤ n →
      ∃ c1 ys, compressor.run (fun a b => a ^ b) (Real.logb 10) (2 ^ (-23 : ℤ))
          (((((c.set_threshold (1 / 10)).set_ratio 4).set_attack 10).set_release 50).set_gain 1)
          (List.replicate n (1 / 2)) = .ok (c1, ys) ∧
        c1.transition_ = 1 ∧ 1 + c1.transition_ * (c1.ratio_ - 1) = 4 ∧
        ys[n - 1]? = some (some (1 * Real.sign (1 / 2) * (1 / 10) *
          (|(1 / 2 : ℝ)| / (1 / 10)) ^ (1 / (4 : ℝ)))) :=
  C9_sustained_level_reaches_full_ratio (Real.logb 10) (2 ^ (-23 : ℤ)) 40 (by decide)
    (1 / 10) 4 1 (1 / 2) 10 50 (by norm_num) (by norm_num) (by decide)
    (by rw [abs_of_pos (by norm_num : (0 : ℝ) < 1 / 2)]; norm_num)


/-- C10 fails when the envelope window is longer than one sample: with envelope length `4`,
threshold `3/4`, attack of `2` samples and a step from silence to `1`, the level of the
first sample of the step is `sqrt(1/4) = 1/2 < 3/4`, so the transition after one sample is
still `0`, not `min(1, 1/2)`. -/
theorem C10_counterexample :
    ∃ c1 ys, compressor.run (fun a b => a ^ b) (Real.logb 10) (2 ^ (-23 : ℤ))
        ({ envelope_ := { functor_ := quadratic_mean_functor Real.sqrt,
                          buffer_ := [0, 0, 0, 0], pmean_ := 0, L_ := 4, n_ := 0 },
           threshold_ := 3 / 4, gain_ := 1, ratio_ := 4, attack_delta_ := delta_of_count 2,
           release_delta_ := delta_of_count 2, transition_ := 0 } : compressor ℝ)
        [1] = .ok (c1, ys) ∧
      c1.transition_ = 0 ∧ c1.transition_ ≠ min 1 (((1 : Nat) : ℝ) / ((2 : Nat) : ℝ)) := by
  obtain ⟨c1, ys, hrun, _, _, _, _, _, _, _, htr⟩ :=
    step_response (fun a b => a ^ b) (Real.logb 10) (2 ^ (-23 : ℤ)) 4 (by decide) 0 1 2 2
      ({ envelope_ := { functor_ := quadratic_mean_functor Real.sqrt,
                        buffer_ := [0, 0, 0, 0], pmean_ := 0, L_ := 4, n_ := 0 },
         threshold_ := 3 / 4, gain_ := 1, ratio_ := 4, attack_delta_ := delta_of_count 2,
         release_delta_ := delta_of_count 2, transition_ := 0 } : compressor ℝ)
      (mean_inv_silent Real.sqrt 4 0 (by decide) _ (by
        intro j hj
        simp only [step_stream]
        rw [if_pos hj]))
      (by norm_num) rfl (by decide) (by simp [delta_of_count])
      (fun a h => delta_of_count_nonneg 2 a h) (by decide) (by norm_num) (by norm_num) 1
  have h0 : c1.transition_ = 0 := by
    rw [htr]
    norm_num
  refine ⟨c1, ys, hrun, h0, ?_⟩
  rw [h0]
  norm_num

/-- C10 (amended): a compressor at rest on silence (envelope window of length `L ≥ 1` all
zeros, transition `0`) with `threshold > 0` and attack of `A ≥ 1` samples, fed the constant
`x` with `|x| > threshold`. Let `k0 < L` be the number of leading samples of the step whose
RMS level `sqrt(j * x² / L)` does not exceed the threshold (`k0 = 0` exactly when
`x² > L * threshold²`, as for `L = 1`). Then processing succeeds, the transition is
non-decreasing, stays `0` over the first `k0` samples and then rises by `1/A` per sample until
clamped at `1`: after `m` samples of the step it is `min(1, (m - k0)/A)`. -/
theorem C10_step_attack_after_onset (pow : ℝ → ℝ → ℝ) (log10 : ℝ → ℝ) (epsilon : ℝ)
    (L : Nat) (hL : 1 ≤ L) (n0 : Nat) (hn0 : n0 < L) (A R : Nat) (hA : 1 ≤ A)
    (c0 : compressor ℝ) (x : ℝ)
    (henv : c0.envelope_ = { functor_ := quadratic_mean_functor Real.sqrt,
                             buffer_ := List.replicate L 0, pmean_ := 0, L_ := L, n_ := n0 })
    (ht0 : c0.transition_ = 0) (ht : 0 < c0.threshold_)
    (hatt : c0.attack_delta_ = delta_of_count A) (hrel : c0.release_delta_ = delta_of_count R)
    (hx : c0.threshold_ < |x|) :
    ∃ k0, k0 < L ∧
      (k0 : ℝ) * (x * x) ≤ (L : ℝ) * (c0.threshold_ * c0.threshold_) ∧
      (L : ℝ) * (c0.threshold_ * c0.threshold_) < ((k0 : ℝ) + 1) * (x * x) ∧
      (k0 = 0 ↔ (L : ℝ) * (c0.threshold_ * c0.threshold_) < x * x) ∧
      ∀ m, ∃ c1 ys c2 zs,
        compressor.run pow log10 epsilon c0 (List.replicate m x) = .ok (c1, ys) ∧
        compressor.run pow log10 epsilon c0 (List.replicate (m + 1) x) = .ok (c2, zs) ∧
        c1.transition_ = min 1 (((m - k0 : Nat) : ℝ) / (A : ℝ)) ∧
        c1.transition_ ≤ c2.transition_ := by
  have hAr : (0 : ℝ) < (A : ℝ) := by exact_mod_cast hA
  have hA0 : A ≠ 0 := by omega
  obtain ⟨k0, hk0, hlow, hhigh⟩ := exists_onset L hL x c0.threshold_ ht hx
  have hinv : mean_inv (quadratic_mean_functor Real.sqrt) L (step_stream (n0 + L) x) n0
      c0.envelope_ := by
    rw [henv]
    exact mean_inv_silent Real.sqrt L n0 hn0 _ (by
      intro j hj
      simp only [step_stream]
      rw [if_pos hj])
  have hresp := step_response pow log10 epsilon L hL n0 x A k0 c0 hinv ht ht0 hA
    (by rw [hatt]; simp [delta_of_count, hA0])
    (fun a h => delta_of_count_nonneg R a (by rw [← hrel]; exact h)) hk0 hlow hhigh
  refine ⟨k0, hk0, hlow, hhigh, ?_, ?_⟩
  · constructor
    · intro h0
      rw [h0] at hhigh
      simpa using hhigh
    · intro hbig
      by_contra hne
      have h1 : (1 : ℝ) ≤ (k0 : ℝ) := by
        have : 1 ≤ k0 := by omega
        exact_mod_cast this
      have h2 : (1 : ℝ) * (x * x) ≤ (k0 : ℝ) * (x * x) :=
        mul_le_mul_of_nonneg_right h1 (mul_self_nonneg x)
      linarith
  · intro m
    obtain ⟨c1, ys, hrun1, _, _, _, _, _, _, _, htr1⟩ := hresp m
    obtain ⟨c2, zs, hrun2, _, _, _, _, _, _, _, htr2⟩ := hresp (m + 1)
    refine ⟨c1, ys, c2, zs, hrun1, hrun2, htr1, ?_⟩
    rw [htr1, htr2]
    apply min_le_min le_rfl
    apply div_le_div_of_nonneg_right _ hAr.le
    have : m - k0 ≤ m + 1 - k0 := by omega
    exact_mod_cast this

/-- C10 (amended) on the state of the counterexample: envelope length `4`, threshold `3/4`,
attack of `2` samples, step to `1`. -/
theorem C10_step_attack_after_onset_witness :
    ∃ k0 : Nat, k0 < 4 ∧
      (k0 : ℝ) * ((1 : ℝ) * 1) ≤ ((4 : Nat) : ℝ) * ((3 / 4 : ℝ) * (3 / 4)) ∧
      ((4 : Nat) : ℝ) * ((3 / 4 : ℝ) * (3 / 4)) < ((k0 : ℝ) + 1) * ((1 : ℝ) * 1) ∧
      (k0 = 0 ↔ ((4 : Nat) : ℝ) * ((3 / 4 : ℝ) * (3 / 4)) < (1 : ℝ) * 1) ∧
      ∀ m, ∃ c1 ys c2 zs,
        compressor.run (fun a b => a ^ b) (Real.logb 10) (2 ^ (-23 : ℤ))
          ({ envelope_ := { functor_ := quadratic_mean_functor Real.sqrt,
                            buffer_ := [0, 0, 0, 0], pmean_ := 0, L_ := 4, n_ := 0 },
             threshold_ := 3 / 4, gain_ := 1, ratio_ := 4, attack_delta_ := delta_of_count 2,
             release_delta_ := delta_of_count 2, transition_ := 0 } : compressor ℝ)
          (List.replicate m 1) = .ok (c1, ys) ∧
        compressor.run (fun a b => a ^ b) (Real.logb 10) (2 ^ (-23 : ℤ))
          ({ envelope_ := { functor_ := quadratic_mean_functor Real.sqrt,
                            buffer_ := [0, 0, 0, 0], pmean_ := 0, L_ := 4, n_ := 0 },
             threshold_ := 3 / 4, gain_ := 1, ratio_ := 4, attack_delta_ := delta_of_count 2,
             release_delta_ := delta_of_count 2, transition_ := 0 } : compressor ℝ)
          (List.replicate (m + 1) 1) = .ok (c2, zs) ∧
        c1.transition_ = min 1 (((m - k0 : Nat) : ℝ) / ((2 : Nat) : ℝ)) ∧
        c1.transition_ ≤ c2.transition_ :=
  C10_step_attack_after_onset (fun a b => a ^ b) (Real.logb 10) (2 ^ (-23 : ℤ)) 4 (by decide)
    0 (by decide) 2 2 (by decide)
    ({ envelope_ := { functor_ := quadratic_mean_functor Real.sqrt,
                      buffer_ := [0, 0, 0, 0], pmean_ := 0, L_ := 4, n_ := 0 },
       threshold_ := 3 / 4, gain_ := 1, ratio_ := 4, attack_delta_ := delta_of_count 2,
       release_delta_ := delta_of_count 2, transition_ := 0 } : compressor ℝ) 1
    rfl rfl (by norm_num) rfl rfl (by norm_num)


/-! ## Estimator: the accumulator -/

theorem slots_inv_init {α : Type} [LinearOrderedField α] (f : mean_functor α) (L : Nat)
    (hL : 0 < L) (ic : α) :
    ∃ g, generalized_mean.init L f ic = .ok g ∧ slots_inv g ∧ g.L_ = L ∧ g.n_ = 0 := by
  have h0 : (trivial_array.make L (f.power ic / (L : α)))[0]? = some (f.power ic / (L : α)) := by
    simp [trivial_array.make, List.getElem?_replicate, hL]
  refine ⟨{ functor_ := f, buffer_ := trivial_array.make L (f.power ic / (L : α)),
            pmean_ := (L : α) * (f.power ic / (L : α)), L_ := L, n_ := 0 }, ?_, ?_, rfl, rfl⟩
  · simp only [generalized_mean.init, trivial_array.read, h0]
    rfl
  · refine ⟨by simp [trivial_array.make], hL, ?_⟩
    simp [trivial_array.make, List.sum_replicate]

theorem slots_inv_call {α : Type} [LinearOrderedField α] (g : generalized_mean α)
    (h : slots_inv g) (x : α) :
    ∃ g1 y, g.call x = .ok (g1, y) ∧ slots_inv g1 ∧ g1.L_ = g.L_ ∧
      g1.n_ = (g.n_ + 1) % g.L_ ∧ g1.functor_ = g.functor_ := by
  obtain ⟨hlen, hn, hsum⟩ := h
  have hn2 : g.n_ < g.buffer_.length := by rw [hlen]; exact hn
  have hold : g.buffer_[g.n_]? = some g.buffer_[g.n_] := List.getElem?_eq_getElem hn2
  have hL0 : ¬ g.L_ = 0 := by omega
  refine ⟨{ g with buffer_ := g.buffer_.set g.n_ (g.functor_.power x / (g.L_ : α)),
                   pmean_ := g.pmean_ - g.buffer_[g.n_] + g.functor_.power x / (g.L_ : α),
                   n_ := (g.n_ + 1) % g.L_ },
    g.functor_.root (g.pmean_ - g.buffer_[g.n_] + g.functor_.power x / (g.L_ : α)),
    ?_, ?_, rfl, rfl, rfl⟩
  · simp only [generalized_mean.call, trivial_array.read, trivial_array.write, hold, hn2]
    simp [bind, Except.bind, pure, Except.pure, hL0]
  · refine ⟨by simpa using hlen, Nat.mod_lt _ (by omega), ?_⟩
    show (g.buffer_.set g.n_ _).sum = _
    rw [List.sum_set', dif_pos hn2, hsum]
    ring

theorem slots_inv_run {α : Type} [LinearOrderedField α] :
    ∀ (xs : List α) (g : generalized_mean α), slots_inv g →
      ∃ g1 ys, g.run xs = .ok (g1, ys) ∧ slots_inv g1 ∧ g1.L_ = g.L_ ∧
        g1.n_ = (g.n_ + xs.length) % g.L_ ∧ ys.length = xs.length := by
  intro xs
  induction xs with
  | nil =>
    intro g h
    exact ⟨g, [], rfl, h, rfl, by simp [Nat.mod_eq_of_lt h.2.1], rfl⟩
  | cons x xs ih =>
    intro g h
    obtain ⟨g1, y, hc, h1, hL1, hn1, _⟩ := slots_inv_call g h x
    obtain ⟨g2, ys, hr, h2, hL2, hn2, hlen⟩ := ih g1 h1
    refine ⟨g2, y :: ys, ?_, h2, by rw [hL2, hL1], ?_, by simp [hlen]⟩
    · rw [generalized_mean.run, hc]
      simp [bind, Except.bind, hr, pure, Except.pure]
    · rw [hn2, hn1, hL1, List.length_cons, Nat.mod_add_mod]
      congr 1
      omega

/-- C12 fails: with window length `0` no configuration error is reported; the constructor
itself reads slot `0` of the empty buffer (undefined behaviour), for the estimator and for
the compressor's envelope detector alike. -/
theorem C12_counterexample :
    generalized_mean.init 0 arithmetic_mean_functor (0 : ℚ) = .error Fault.out_of_bounds ∧
      (compressor.init Real.sqrt 0).toOption = none ∧
      ((compressor.init Real.sqrt 0).map fun c => c.threshold_) =
        .error Fault.out_of_bounds := by
  refine ⟨?_, ?_, ?_⟩ <;>
    simp [compressor.init, quadratic_mean, generalized_mean.init, trivial_array.make,
      trivial_array.read, bind, Except.bind, Except.map, Except.toOption]

/-- C12 (amended): the window length is not checked. With `L = 0` the constructor reads
slot `0` of the empty buffer, which is undefined behaviour, not a reported error; with
`L ≥ 1` construction succeeds and every sequence of steps runs without a division or modulo
by zero and without an access outside the buffer. -/
theorem C12_window_length_is_unchecked {α : Type} [LinearOrderedField α]
    (f : mean_functor α) (ic : α) (L : Nat) (xs : List α) :
    generalized_mean.init 0 f ic = .error Fault.out_of_bounds ∧
      (1 ≤ L → ∃ g0 g ys, generalized_mean.init L f ic = .ok g0 ∧ g0.run xs = .ok (g, ys) ∧
        g.L_ = L ∧ g.buffer_.length = L ∧ g.n_ < L ∧ ys.length = xs.length) := by
  constructor
  · simp [generalized_mean.init, trivial_array.make, trivial_array.read, bind, Except.bind]
  · intro hL
    obtain ⟨g0, h0, hinv, hL0, _⟩ := slots_inv_init f L hL ic
    obtain ⟨g, ys, hr, hinv1, hL1, _, hlen⟩ := slots_inv_run xs g0 hinv
    have hgL : g.L_ = L := by rw [hL1, hL0]
    refine ⟨g0, g, ys, h0, hr, hgL, ?_, ?_, hlen⟩
    · rw [hinv1.1, hgL]
    · rw [← hgL]; exact hinv1.2.1

/-- C12 (amended) at `L = 2`, the arithmetic mean over the rationals, inputs `2, 4, 6`. -/
theorem C12_window_length_is_unchecked_witness :
    generalized_mean.init 0 arithmetic_mean_functor (0 : ℚ) = .error Fault.out_of_bounds ∧
      ∃ g0 g ys, generalized_mean.init 2 arithmetic_mean_functor (0 : ℚ) = .ok g0 ∧
        g0.run [2, 4, 6] = .ok (g, ys) ∧
        g.L_ = 2 ∧ g.buffer_.length = 2 ∧ g.n_ < 2 ∧ ys.length = [(2 : ℚ), 4, 6].length :=
  ⟨(C12_window_length_is_unchecked arithmetic_mean_functor (0 : ℚ) 2 [2, 4, 6]).1,
   (C12_window_length_is_unchecked arithmetic_mean_functor (0 : ℚ) 2 [2, 4, 6]).2 (by decide)⟩

/-- C20 fails: with `L = 2`, the arithmetic mean and initial condition `1`, the two slots
hold `1/2` each and add up to `1`, which is `pmean_`, while `L` times `pmean_` is `2`. -/
theorem C20_counterexample :
    ∃ g, arithmetic_mean 2 (1 : ℚ) = .ok g ∧ g.buffer_ = [1 / 2, 1 / 2] ∧ g.pmean_ = 1 ∧
      g.buffer_.sum = 1 ∧ g.buffer_.sum ≠ (g.L_ : ℚ) * g.pmean_ := by
  refine ⟨{ functor_ := arithmetic_mean_functor, buffer_ := [1 / 2, 1 / 2], pmean_ := 1,
            L_ := 2, n_ := 0 }, ?_, rfl, rfl, ?_, ?_⟩
  · simp [arithmetic_mean, generalized_mean.init, trivial_array.make, trivial_array.read,
      arithmetic_mean_functor, bind, Except.bind, pure, Except.pure, List.replicate]
  · norm_num
  · norm_num

/-- C20 (amended): in every reachable estimator state (after construction with `L ≥ 1` and
after any number of steps) the `L` accumulator slots add up to `pmean_` itself: each slot
holds `power(sample)/L`, so their sum already is the mean of the powers. -/
theorem C20_slots_sum_to_pmean {α : Type} [LinearOrderedField α]
    (f : mean_functor α) (L : Nat) (hL : 1 ≤ L) (ic : α) (xs : List α) :
    ∃ g0 g ys, generalized_mean.init L f ic = .ok g0 ∧ g0.run xs = .ok (g, ys) ∧
      g.buffer_.length = L ∧ g.buffer_.sum = g.pmean_ := by
  obtain ⟨g0, h0, hinv, hL0, _⟩ := slots_inv_init f L hL ic
  obtain ⟨g, ys, hr, hinv1, hL1, _, _⟩ := slots_inv_run xs g0 hinv
  exact ⟨g0, g, ys, h0, hr, by rw [hinv1.1, hL1, hL0], hinv1.2.2⟩

/-- C20 (amended) at `L = 2`, the arithmetic mean over the rationals, `ic = 1`, inputs
`2, 4, 6`. -/
theorem C20_slots_sum_to_pmean_witness :
    ∃ g0 g ys, generalized_mean.init 2 arithmetic_mean_functor (1 : ℚ) = .ok g0 ∧
      g0.run [2, 4, 6] = .ok (g, ys) ∧ g.buffer_.length = 2 ∧ g.buffer_.sum = g.pmean_ :=
  C20_slots_sum_to_pmean arithmetic_mean_functor 2 (by decide) 1 [2, 4, 6]


/-! ## Quadratic mean of a constant input -/

/-- C14: for every `L ≥ 1`, every real `c` and every initial condition `ic`, a quadratic-mean
estimator fed the constant `c` returns exactly `|c|` at its `L`-th step and at every later
step. -/
theorem C14_quadratic_mean_of_constant (L : Nat) (hL : 1 ≤ L) (c ic : ℝ) (n : Nat) :
    ∃ g0 g ys, quadratic_mean Real.sqrt L ic = .ok g0 ∧
      g0.run (List.replicate n c) = .ok (g, ys) ∧ ys.length = n ∧
      ∀ k, L ≤ k + 1 → k < n → ys[k]? = some |c| := by
  have hLr : (L : ℝ) ≠ 0 := by
    have : 0 < L := hL
    exact_mod_cast this.ne'
  obtain ⟨g0, g, ys, h0, hr, hlen, hys⟩ :=
    mean_run_window (quadratic_mean_functor Real.sqrt) L hL ic (List.replicate n c)
  refine ⟨g0, g, ys, h0, hr, by simpa using hlen, ?_⟩
  intro k hLk hk
  have htake : (List.replicate n c).take (k + 1) = List.replicate (k + 1) c := by
    rw [List.take_replicate, Nat.min_eq_left (by omega)]
  have hwin : last_samples L (List.replicate L ic ++ List.replicate (k + 1) c) =
      List.replicate L c := by
    rw [last_samples_pad, List.length_replicate, Nat.sub_eq_zero_of_le hLk,
      Nat.min_eq_right hLk, last_samples, List.length_replicate, List.drop_replicate]
    simp only [List.replicate_zero, List.nil_append]
    congr 1
    omega
  rw [hys k (by simpa using hk), htake, hwin, List.map_replicate, List.sum_replicate,
    nsmul_eq_mul]
  show some (Real.sqrt _) = _
  congr 1
  have : (L : ℝ) * (c * c / (L : ℝ)) = c * c := by field_simp
  show Real.sqrt ((L : ℝ) * (c * c / (L : ℝ))) = |c|
  rw [this, Real.sqrt_mul_self_eq_abs]

/-- C14 on the scenario of the specification: `L = 64`, constant input `1/2`, `100` samples. -/
theorem C14_quadratic_mean_of_constant_witness :
    ∃ g0 g ys, quadratic_mean Real.sqrt 64 0 = .ok g0 ∧
      g0.run (List.replicate 100 (1 / 2)) = .ok (g, ys) ∧ ys.length = 100 ∧
      ∀ k, 64 ≤ k + 1 → k < 100 → ys[k]? = some |(1 / 2 : ℝ)| :=
  C14_quadratic_mean_of_constant 64 (by decide) (1 / 2) 0 100

/-- C15 fails for a window longer than one sample: with `L = 4`, the default initial
condition `0` and the constant input `2`, the first output is `sqrt(2 * 2 / 4) = 1`, not
`|2| = 2`. -/
theorem C15_counterexample :
    ((quadratic_mean Real.sqrt 4 0 >>= fun g0 => g0.run [2]).map fun r => r.2) = .ok [1] ∧
      (1 : ℝ) ≠ |2| := by
  constructor
  · norm_num [quadratic_mean, generalized_mean.init, generalized_mean.run,
      generalized_mean.call, trivial_array.make, trivial_array.read, trivial_array.write,
      quadratic_mean_functor, bind, Except.bind, pure, Except.pure, Except.map, List.replicate]
  · norm_num

/-- C15 (amended): for every `L ≥ 1` and every real `c`, a quadratic-mean estimator with its
default initial condition `0`, fed the constant `c`, returns `sqrt(min(k, L) * c² / L)` at
step `k`, that is `|c| * sqrt(min(k, L) / L)`: it reaches `|c|` at step `L` and keeps it
from there on (immediately only for `L = 1`). -/
theorem C15_quadratic_mean_ramps_up (L : Nat) (hL : 1 ≤ L) (c : ℝ) (n : Nat) :
    ∃ g0 g ys, quadratic_mean Real.sqrt L 0 = .ok g0 ∧
      g0.run (List.replicate n c) = .ok (g, ys) ∧ ys.length = n ∧
      ∀ k, k < n →
        ys[k]? = some (Real.sqrt (((min (k + 1) L : Nat) : ℝ) * (c * c) / (L : ℝ))) ∧
        (L ≤ k + 1 → ys[k]? = some |c|) := by
  have hLr : (L : ℝ) ≠ 0 := by
    have : 0 < L := hL
    exact_mod_cast this.ne'
  obtain ⟨g0, h0, hinv⟩ := mean_inv_init (quadratic_mean_functor Real.sqrt) L hL (0 : ℝ)
    (step_stream (0 + L) c) (by
      intro j hj
      simp [step_stream, hj])
  obtain ⟨g, ys, hr, _, hlen, hys⟩ := mean_inv_run (quadratic_mean_functor Real.sqrt) L hL
    (step_stream (0 + L) c) (List.replicate n c) 0 g0 hinv (by
      intro i hi
      have hi2 : i < n := by simpa using hi
      simp [step_stream, List.getElem?_replicate, hi2])
  refine ⟨g0, g, ys, h0, hr, by simpa using hlen, ?_⟩
  intro k hk
  have hsum := step_window_sum 0 L hL c (k + 1)
  have hmain : ys[k]? =
      some (Real.sqrt (((min (k + 1) L : Nat) : ℝ) * (c * c) / (L : ℝ))) := by
    rw [hys k (by simpa using hk)]
    show some (Real.sqrt _) = _
    congr 2
  refine ⟨hmain, ?_⟩
  intro hLk
  rw [hmain, Nat.min_eq_right hLk, mul_comm, mul_div_assoc, div_self hLr, mul_one,
    Real.sqrt_mul_self_eq_abs]

/-- C15 (amended) at `L = 4`, constant input `2`, `10` samples. -/
theorem C15_quadratic_mean_ramps_up_witness :
    ∃ g0 g ys, quadratic_mean Real.sqrt 4 0 = .ok g0 ∧
      g0.run (List.replicate 10 2) = .ok (g, ys) ∧ ys.length = 10 ∧
      ∀ k, k < 10 →
        ys[k]? = some (Real.sqrt (((min (k + 1) 4 : Nat) : ℝ) * ((2 : ℝ) * 2) / ((4 : Nat) : ℝ))) ∧
        (4 ≤ k + 1 → ys[k]? = some |(2 : ℝ)|) :=
  C15_quadratic_mean_ramps_up 4 (by decide) 2 10

/-! ## Decibel round trip -/

/-- C16: for every real `x`, `set_threshold_dB(x)` followed by `threshold_dB()` gives `x`
(`20 * log10(10^(x/20)) = x`), for the compressor and for the limiter. -/
theorem C16_threshold_dB_round_trip (c : compressor ℝ) (l : limiter ℝ) (x : ℝ) :
    (c.set_threshold_dB (fun a b => a ^ b) x).threshold_dB (Real.logb 10) = some x ∧
      (l.set_threshold_dB (fun a b => a ^ b) x).threshold_dB (Real.logb 10) = some x := by
  have hpos : (0 : ℝ) < (10 : ℝ) ^ (x / 20) := Real.rpow_pos_of_pos (by norm_num) _
  have hlog : Real.logb 10 ((10 : ℝ) ^ (x / 20)) = x / 20 :=
    Real.logb_rpow (by norm_num) (by norm_num)
  constructor
  · simp only [compressor.threshold_dB, compressor.set_threshold_dB, std_log10, hpos,
      if_true, Option.map_some', hlog]
    congr 1
    ring
  · simp only [limiter.threshold_dB, limiter.set_threshold_dB, limiter.set_threshold,
      std_log10, hpos, if_true, Option.map_some', hlog]
    congr 1
    ring


/-! ## Compressor: configuration, transition update, telemetry -/

/-- In every reachable compressor state the envelope detector's accumulator is
consistent, so the next call of `operator()` runs. -/
theorem reachable_envelope {α : Type} [LinearOrderedField α] [FloorRing α]
    (sqrt : α → α) (pow : α → α → α) (log10 : α → α) (epsilon : α) (c : compressor α)
    (h : compressor.reachable sqrt pow log10 epsilon c) : slots_inv c.envelope_ := by
  induction h with
  | init L c hc =>
    rcases Nat.eq_zero_or_pos L with h0 | hpos
    · subst h0
      simp [compressor.init, quadratic_mean, generalized_mean.init, trivial_array.make,
        trivial_array.read, bind, Except.bind] at hc
    · obtain ⟨g, hg, hinv, _, _⟩ := slots_inv_init (quadratic_mean_functor sqrt) L hpos (0 : α)
      simp only [compressor.init, quadratic_mean, hg, bind, Except.bind, pure,
        Except.pure] at hc
      have := Except.ok.inj hc
      subst this
      exact hinv
  | set_threshold_dB c t _ ih => exact ih
  | set_threshold c t _ ih => exact ih
  | set_gain_dB c g _ ih => exact ih
  | set_gain c g _ ih => exact ih
  | set_ratio c r _ ih => exact ih
  | set_attack c n _ ih => exact ih
  | set_release c n _ ih => exact ih
  | call c x w r _ hcall ih =>
    obtain ⟨env, e, he, hst⟩ := compressor_call_inv pow log10 epsilon c x w r hcall
    obtain ⟨g1, y, hc1, hinv1, _⟩ := slots_inv_call c.envelope_ ih x
    rw [he] at hc1
    have := Except.ok.inj hc1
    rw [hst]
    show slots_inv env
    rw [(Prod.mk.inj this).1]
    exact hinv1

/-- Every reachable compressor state accepts a call of `operator()`. -/
theorem reachable_call {α : Type} [LinearOrderedField α] [FloorRing α]
    (sqrt : α → α) (pow : α → α → α) (log10 : α → α) (epsilon : α) (c : compressor α)
    (h : compressor.reachable sqrt pow log10 epsilon c) (x : α) (w : Bool) :
    ∃ r, c.call pow log10 epsilon x w = .ok r := by
  obtain ⟨g1, y, hc1, _⟩ := slots_inv_call c.envelope_
    (reachable_envelope sqrt pow log10 epsilon c h) x
  exact ⟨_, compressor_call_of_envelope pow log10 epsilon c x w g1 y hc1⟩

/-- C13 fails: on the constructed compressor (envelope length `1`) `set_threshold(-1)` stores
the threshold `-1`, `set_attack(0)` and `set_release(0)` store the infinite step `1./0`; no
error is reported, the state is changed, and `operator()` runs on the resulting state. -/
theorem C13_counterexample :
    ∃ c r, compressor.init Real.sqrt 1 = .ok c ∧ c.threshold_ = 0 ∧
      (c.set_threshold (-1)).threshold_ = -1 ∧
      (c.set_attack 0).attack_delta_ = none ∧ (c.set_release 0).release_delta_ = none ∧
      (((c.set_threshold (-1)).set_attack 0).set_release 0).call (fun a b => a ^ b)
        (Real.logb 10) (2 ^ (-23 : ℤ)) 1 false = .ok r := by
  have hinit : compressor.reachable Real.sqrt (fun a b => a ^ b) (Real.logb 10)
      (2 ^ (-23 : ℤ))
      ({ envelope_ := { functor_ := quadratic_mean_functor Real.sqrt, buffer_ := [0],
                        pmean_ := 0, L_ := 1, n_ := 0 },
         threshold_ := 0, gain_ := 1, ratio_ := 1, attack_delta_ := some 1,
         release_delta_ := some 1, transition_ := 0 } : compressor ℝ) :=
    compressor.reachable.init 1 _
      (by simp [compressor.init, quadratic_mean, generalized_mean.init, trivial_array.make,
            trivial_array.read, bind, Except.bind, pure, Except.pure, quadratic_mean_functor])
  obtain ⟨r, hr⟩ := reachable_call Real.sqrt (fun a b => a ^ b) (Real.logb 10) (2 ^ (-23 : ℤ)) _
    (compressor.reachable.set_release _ 0 (compressor.reachable.set_attack _ 0
      (compressor.reachable.set_threshold _ (-1) hinit))) 1 false
  refine ⟨_, r, ?_, rfl, rfl, ?_, ?_, hr⟩
  · simp [compressor.init, quadratic_mean, generalized_mean.init, trivial_array.make,
      trivial_array.read, bind, Except.bind, pure, Except.pure, quadratic_mean_functor]
  · simp [compressor.set_attack, delta_of_count]
  · simp [compressor.set_release, delta_of_count]

/-- C13 (amended): the setters store their argument unchecked and report no error. In every
reachable state `set_threshold(t)` makes the threshold `t` for every `t` (also `t ≤ 0`), and
`set_attack(n)` / `set_release(n)` make the step `1/n`, which is the infinite value for
`n = 0` and a finite value in `(0, 1]` for `n ≥ 1`; the states so obtained are reachable and
`operator()` runs on them. -/
theorem C13_setters_store_unchecked {α : Type} [LinearOrderedField α] [FloorRing α]
    (sqrt : α → α) (pow : α → α → α) (log10 : α → α) (epsilon : α) (c : compressor α)
    (h : compressor.reachable sqrt pow log10 epsilon c) (t : α) (n : Nat) (x : α) (w : Bool) :
    ((c.set_threshold t).threshold_ = t ∧
        ∃ r, (c.set_threshold t).call pow log10 epsilon x w = .ok r) ∧
      ((c.set_attack n).attack_delta_ = (if n = 0 then none else some (1 / (n : α))) ∧
        ∃ r, (c.set_attack n).call pow log10 epsilon x w = .ok r) ∧
      ((c.set_release n).release_delta_ = (if n = 0 then none else some (1 / (n : α))) ∧
        ∃ r, (c.set_release n).call pow log10 epsilon x w = .ok r) ∧
      (1 ≤ n → (0 : α) < 1 / (n : α) ∧ 1 / (n : α) ≤ 1) := by
  refine ⟨⟨rfl, ?_⟩, ⟨rfl, ?_⟩, ⟨rfl, ?_⟩, ?_⟩
  · exact reachable_call sqrt pow log10 epsilon _ (compressor.reachable.set_threshold c t h) x w
  · exact reachable_call sqrt pow log10 epsilon _ (compressor.reachable.set_attack c n h) x w
  · exact reachable_call sqrt pow log10 epsilon _ (compressor.reachable.set_release c n h) x w
  · intro hn
    have h1 : (1 : α) ≤ (n : α) := by exact_mod_cast hn
    have h0 : (0 : α) < (n : α) := by linarith
    exact ⟨by positivity, by rw [div_le_iff₀ h0]; linarith⟩

/-- C13 (amended) on the constructed compressor with envelope length `1`: threshold `-1`,
count `10`, sample `1`. -/
theorem C13_setters_store_unchecked_witness :
    ∃ c, compressor.init Real.sqrt 1 = .ok c ∧
      ((c.set_threshold (-1)).threshold_ = -1 ∧
        ∃ r, (c.set_threshold (-1)).call (fun a b => a ^ b) (Real.logb 10) (2 ^ (-23 : ℤ))
          1 false = .ok r) ∧
      ((c.set_attack 10).attack_delta_ = (if 10 = 0 then none else some (1 / ((10 : Nat) : ℝ))) ∧
        ∃ r, (c.set_attack 10).call (fun a b => a ^ b) (Real.logb 10) (2 ^ (-23 : ℤ))
          1 false = .ok r) ∧
      ((c.set_release 10).release_delta_ = (if 10 = 0 then none else some (1 / ((10 : Nat) : ℝ))) ∧
        ∃ r, (c.set_release 10).call (fun a b => a ^ b) (Real.logb 10) (2 ^ (-23 : ℤ))
          1 false = .ok r) ∧
      (1 ≤ 10 → (0 : ℝ) < 1 / ((10 : Nat) : ℝ) ∧ 1 / ((10 : Nat) : ℝ) ≤ 1) := by
  have hinit : compressor.init Real.sqrt 1 = .ok
      ({ envelope_ := { functor_ := quadratic_mean_functor Real.sqrt, buffer_ := [0],
                        pmean_ := 0, L_ := 1, n_ := 0 },
         threshold_ := 0, gain_ := 1, ratio_ := 1, attack_delta_ := some 1,
         release_delta_ := some 1, transition_ := 0 } : compressor ℝ) := by
    simp [compressor.init, quadratic_mean, generalized_mean.init, trivial_array.make,
      trivial_array.read, bind, Except.bind, pure, Except.pure, quadratic_mean_functor]
  exact ⟨_, hinit, C13_setters_store_unchecked Real.sqrt (fun a b => a ^ b) (Real.logb 10)
    (2 ^ (-23 : ℤ)) _ (compressor.reachable.init 1 _ hinit) (-1) 10 1 false⟩

/-- C19: one call of `operator()` with finite step sizes `a ≥ 0` (attack) and `r ≥ 0`
(release) and old transition `t` in `[0,1]` leaves the transition `min(1, t + a)` when the
level exceeds the threshold, `max(0, t - r)` when it is below, and `t` when they are equal;
so the transition does not decrease on an attack step and does not increase on a release
step. -/
theorem C19_transition_update {α : Type} [LinearOrderedField α] [FloorRing α]
    (pow : α → α → α) (log10 : α → α) (epsilon : α) (c : compressor α) (x : α) (w : Bool)
    (env : generalized_mean α) (e a r : α) (he : c.envelope_.call x = .ok (env, e))
    (hatt : c.attack_delta_ = some a) (hrel : c.release_delta_ = some r)
    (h0 : 0 ≤ c.transition_) (h1 : c.transition_ ≤ 1) (ha : 0 ≤ a) (hr : 0 ≤ r) :
    ∃ res, c.call pow log10 epsilon x w = .ok res ∧
      (c.threshold_ < |e| → res.state.transition_ = min 1 (c.transition_ + a) ∧
        c.transition_ ≤ res.state.transition_) ∧
      (|e| < c.threshold_ → res.state.transition_ = max 0 (c.transition_ - r) ∧
        res.state.transition_ ≤ c.transition_) ∧
      (|e| = c.threshold_ → res.state.transition_ = c.transition_) := by
  refine ⟨_, compressor_call_of_envelope pow log10 epsilon c x w env e he, ?_, ?_, ?_⟩
  · intro hgt
    have : c.adjust_transition |e| = min 1 (c.transition_ + a) := by
      simp [compressor.adjust_transition, hgt, hatt]
    show c.adjust_transition |e| = _ ∧ _ ≤ c.adjust_transition |e|
    rw [this]
    exact ⟨rfl, le_min h1 (by linarith)⟩
  · intro hlt
    have : c.adjust_transition |e| = max 0 (c.transition_ - r) := by
      simp [compressor.adjust_transition, hlt, not_lt.mpr hlt.le, hrel]
    show c.adjust_transition |e| = _ ∧ c.adjust_transition |e| ≤ _
    rw [this]
    exact ⟨rfl, max_le h0 (by linarith)⟩
  · intro heq
    show c.adjust_transition |e| = _
    simp [compressor.adjust_transition, heq]

/-- C19 at envelope length `1`, threshold `1/2`, attack step `1/4`, transition `1/2`,
sample `1`: the level `1` exceeds the threshold and the transition becomes `3/4`. -/
theorem C19_transition_update_witness :
    ∃ res, compressor.call (fun a b => a ^ b) (Real.logb 10) (2 ^ (-23 : ℤ))
        ({ envelope_ := { functor_ := quadratic_mean_functor Real.sqrt, buffer_ := [0],
                          pmean_ := 0, L_ := 1, n_ := 0 },
           threshold_ := 1 / 2, gain_ := 2, ratio_ := 4, attack_delta_ := some (1 / 4),
           release_delta_ := some (1 / 8), transition_ := 1 / 2 } : compressor ℝ) 1 false =
          .ok res ∧
      res.state.transition_ = min 1 (1 / 2 + 1 / 4) ∧ (1 / 2 : ℝ) ≤ res.state.transition_ := by
  obtain ⟨res, h1, h2, _, _⟩ := C19_transition_update (fun a b => a ^ b) (Real.logb 10)
    (2 ^ (-23 : ℤ))
    ({ envelope_ := { functor_ := quadratic_mean_functor Real.sqrt, buffer_ := [0],
                      pmean_ := 0, L_ := 1, n_ := 0 },
       threshold_ := 1 / 2, gain_ := 2, ratio_ := 4, attack_delta_ := some (1 / 4),
       release_delta_ := some (1 / 8), transition_ := 1 / 2 } : compressor ℝ) 1 false
    { functor_ := quadratic_mean_functor Real.sqrt, buffer_ := [1], pmean_ := 1, L_ := 1, n_ := 0 }
    1 (1 / 4) (1 / 8)
    (by simp [generalized_mean.call, trivial_array.read, trivial_array.write,
          quadratic_mean_functor, bind, Except.bind, pure, Except.pure])
    rfl rfl (by norm_num) (by norm_num) (by norm_num) (by norm_num)
  exact ⟨res, h1, h2 (by norm_num)⟩

/-- C17: when telemetry is requested the value written is `20 * log10(g)`, `g` being the
gain before the makeup gain is applied (the returned sample is `g * makeup_gain * x`), and
`20 * log10(epsilon)` in its place when `g == 0`; with a null pointer nothing is written, and
requesting telemetry changes neither the returned sample nor the new state. -/
theorem C17_telemetry {α : Type} [LinearOrderedField α] [FloorRing α]
    (pow : α → α → α) (log10 : α → α) (epsilon : α) (c : compressor α) (x : α)
    (env : generalized_mean α) (e : α) (he : c.envelope_.call x = .ok (env, e))
    (heps : 0 < epsilon) :
    ∃ r0 r1, c.call pow log10 epsilon x false = .ok r0 ∧
      c.call pow log10 epsilon x true = .ok r1 ∧
      r1.state = r0.state ∧ r1.sample = r0.sample ∧ r0.compression_dB = none ∧
      ∀ g, compressor.compute_gain pow c (c.adjust_transition |e|) |e| = some g →
        r1.sample = some (g * c.gain_ * x) ∧
        (0 < g → r1.compression_dB = some (some (20 * log10 g))) ∧
        (g = 0 → r1.compression_dB = some (some (20 * log10 epsilon))) := by
  refine ⟨_, _, compressor_call_of_envelope pow log10 epsilon c x false env e he,
    compressor_call_of_envelope pow log10 epsilon c x true env e he, rfl, rfl, rfl, ?_⟩
  intro g hg
  refine ⟨?_, ?_, ?_⟩
  · simp [hg]
  · intro hpos
    simp [hg, compressor.telemetry, std_log10, hpos, hpos.ne]
  · intro hz
    simp [hg, compressor.telemetry, std_log10, hz, heps]

/-- C17 at envelope length `1`, threshold `1/2`, ratio `1`, makeup gain `2`, sample `1`:
the gain is `1`. -/
theorem C17_telemetry_witness :
    ∃ r0 r1, compressor.call (fun a b => a ^ b) (Real.logb 10) (2 ^ (-23 : ℤ))
        ({ envelope_ := { functor_ := quadratic_mean_functor Real.sqrt, buffer_ := [0],
                          pmean_ := 0, L_ := 1, n_ := 0 },
           threshold_ := 1 / 2, gain_ := 2, ratio_ := 1, attack_delta_ := some 1,
           release_delta_ := some 1, transition_ := 0 } : compressor ℝ) 1 false = .ok r0 ∧
      compressor.call (fun a b => a ^ b) (Real.logb 10) (2 ^ (-23 : ℤ))
        ({ envelope_ := { functor_ := quadratic_mean_functor Real.sqrt, buffer_ := [0],
                          pmean_ := 0, L_ := 1, n_ := 0 },
           threshold_ := 1 / 2, gain_ := 2, ratio_ := 1, attack_delta_ := some 1,
           release_delta_ := some 1, transition_ := 0 } : compressor ℝ) 1 true = .ok r1 ∧
      r1.state = r0.state ∧ r1.sample = r0.sample ∧ r0.compression_dB = none ∧
      r1.sample = some (1 * 2 * 1) ∧
      r1.compression_dB = some (some (20 * Real.logb 10 1)) := by
  obtain ⟨r0, r1, h0, h1, hs, hx, hn, hg⟩ := C17_telemetry (fun a b => a ^ b) (Real.logb 10)
    (2 ^ (-23 : ℤ))
    ({ envelope_ := { functor_ := quadratic_mean_functor Real.sqrt, buffer_ := [0],
                      pmean_ := 0, L_ := 1, n_ := 0 },
       threshold_ := 1 / 2, gain_ := 2, ratio_ := 1, attack_delta_ := some 1,
       release_delta_ := some 1, transition_ := 0 } : compressor ℝ) 1
    { functor_ := quadratic_mean_functor Real.sqrt, buffer_ := [1], pmean_ := 1, L_ := 1, n_ := 0 }
    1
    (by simp [generalized_mean.call, trivial_array.read, trivial_array.write,
          quadratic_mean_functor, bind, Except.bind, pure, Except.pure])
    (by positivity)
  obtain ⟨hg1, hg2, _⟩ := hg 1 (compute_gain_unit_ratio _ _ _ _ rfl (by norm_num) (by norm_num))
  exact ⟨r0, r1, h0, h1, hs, hx, hn, hg1, hg2 one_pos⟩


/-! ## Plugin: both channels go through one compressor -/

/-- The frame loop of `ProcessDoubleReplacing` is the one compressor run over the
interleaved samples, each output then passed through the limiter. -/
theorem process_frames_eq_run {α : Type} [LinearOrderedField α] [FloorRing α]
    (pow : α → α → α) (log10 : α → α) (epsilon : α) (lim : limiter α) (mGain : α) :
    ∀ (frames : List (α × α)) (c : compressor α),
      AudioCompressor.process_frames pow log10 epsilon lim mGain c frames =
        (compressor.run pow log10 epsilon c (interleave mGain frames)).map
          fun r => (r.1, frames_of (r.2.map fun y => y.bind lim.call)) := by
  intro frames
  induction frames with
  | nil => intro c; rfl
  | cons fr rest ih =>
    intro c
    obtain ⟨in1, in2⟩ := fr
    rw [AudioCompressor.process_frames, interleave, compressor.run]
    cases h1 : c.call pow log10 epsilon (in1 * mGain) false with
    | error f => rfl
    | ok r1 =>
      simp only [bind, Except.bind]
      rw [compressor.run]
      cases h2 : r1.state.call pow log10 epsilon (in2 * mGain) false with
      | error f => rfl
      | ok r2 =>
        simp only [bind, Except.bind]
        rw [ih r2.state]
        cases compressor.run pow log10 epsilon r2.state (interleave mGain rest) with
        | error f => rfl
        | ok p => rfl


/-- Over a stream whose first `L` samples contribute nothing, the window after `i ≤ L` steps
sums the first `i` samples that followed. -/
theorem fresh_window_sum {α : Type} [LinearOrderedField α] (L : Nat) (F : Nat → α)
    (hF : ∀ j, j < L → F j = 0) :
    ∀ i, i ≤ L → ∑ j in Finset.Ico i (i + L), F j = ∑ m in Finset.range i, F (L + m) := by
  intro i
  induction i with
  | zero =>
    intro _
    have : ∀ j ∈ Finset.Ico 0 (0 + L), F j = 0 := by
      intro j hj
      exact hF j (by simpa using (Finset.mem_Ico.mp hj).2)
    rw [Finset.sum_congr rfl this]
    simp
  | succ i ih =>
    intro hi
    have hshift : ∑ j in Finset.Ico (i + 1) (i + 1 + L), F j =
        ∑ j in Finset.Ico i (i + L), F j - F i + F (i + L) := by
      rw [Finset.sum_eq_sum_Ico_succ_bot (by omega : i < i + L),
        show i + 1 + L = (i + L) + 1 by omega,
        Finset.sum_Ico_succ_top (by omega : i + 1 ≤ i + L)]
      ring
    rw [hshift, ih (by omega), hF i (by omega), Finset.sum_range_succ, Nat.add_comm i L]
    ring

/-- The gain is `1` whenever the effective ratio is `1`, the threshold is not `0` and the
level is not `0`. -/
theorem compute_gain_of_ratio_one {α : Type} [LinearOrderedField α] [FloorRing α]
    (pow : α → α → α) (c : compressor α) (t ref : α) (hr : 1 + t * (c.ratio_ - 1) = 1)
    (ht : c.threshold_ ≠ 0) (hl : ref ≠ 0) : compressor.compute_gain pow c t ref = some 1 := by
  simp only [compressor.compute_gain, fdiv, hr, ht, hl, ne_eq, not_true_eq_false, if_false,
    Option.pure_def, Option.bind_eq_bind, Option.some_bind]
  congr 1
  field_simp

/-- One call of `operator()` over a sample stream: the envelope level is the root of the
window sum of squares over `L`. -/
theorem compressor_call_on_stream (pow : ℝ → ℝ → ℝ) (log10 : ℝ → ℝ) (epsilon : ℝ)
    (L : Nat) (hL : 0 < L) (s : Nat → ℝ) (k : Nat) (c : compressor ℝ) (S : ℝ)
    (henv : mean_inv (quadratic_mean_functor Real.sqrt) L s k c.envelope_)
    (hS : ∑ j in Finset.Ico (k + 1) (k + 1 + L), s j * s j / (L : ℝ) = S) :
    ∃ env, mean_inv (quadratic_mean_functor Real.sqrt) L s (k + 1) env ∧
      c.call pow log10 epsilon (s (k + L)) false = .ok
        { state := { c with
            envelope_ := env
            transition_ := (c.adjust_transition (Real.sqrt S)) }
          sample := ((compressor.compute_gain pow c (c.adjust_transition (Real.sqrt S))
              (Real.sqrt S)).map fun g => g * c.gain_).map fun g => g * s (k + L)
          compression_dB := none } := by
  obtain ⟨env, hcall, hinv⟩ := mean_inv_call _ L hL s k c.envelope_ henv
  have hroot : (quadratic_mean_functor Real.sqrt).root
      (∑ j in Finset.Ico (k + 1) (k + 1 + L),
        (quadratic_mean_functor Real.sqrt).power (s j) / (L : ℝ)) = Real.sqrt S := by
    show Real.sqrt _ = _
    congr 1
  rw [hroot] at hcall
  refine ⟨env, hinv, ?_⟩
  rw [compressor_call_of_envelope pow log10 epsilon c (s (k + L)) false env _ hcall,
    abs_of_nonneg (Real.sqrt_nonneg _)]
  rfl

/-- Processing a first sample and then the rest. -/
theorem compressor_run_cons {α : Type} [LinearOrderedField α] [FloorRing α]
    (pow : α → α → α) (log10 : α → α) (epsilon : α) (c c2 : compressor α) (x : α)
    (xs : List α) (r : compressor.result α) (ys : List (Option α))
    (h1 : c.call pow log10 epsilon x false = .ok r)
    (h2 : compressor.run pow log10 epsilon r.state xs = .ok (c2, ys)) :
    compressor.run pow log10 epsilon c (x :: xs) = .ok (c2, r.sample :: ys) := by
  rw [compressor.run, h1]
  simp [bind, Except.bind, h2, pure, Except.pure]

theorem limiter_threshold_bound : (1 / 2 : ℝ) ≤ (10 : ℝ) ^ ((-1 : ℝ) / 20) := by
  by_contra hlt
  have hlt2 : (10 : ℝ) ^ ((-1 : ℝ) / 20) < 1 / 2 := not_le.mp hlt
  have hpos : (0 : ℝ) < (10 : ℝ) ^ ((-1 : ℝ) / 20) := Real.rpow_pos_of_pos (by norm_num) _
  have h20 : ((10 : ℝ) ^ ((-1 : ℝ) / 20)) ^ (20 : Nat) = (10 : ℝ)⁻¹ := by
    rw [← Real.rpow_natCast, ← Real.rpow_mul (by norm_num : (0 : ℝ) ≤ 10)]
    have : (-1 : ℝ) / 20 * ((20 : Nat) : ℝ) = -1 := by norm_num
    rw [this, Real.rpow_neg_one]
  have hpow : ((10 : ℝ) ^ ((-1 : ℝ) / 20)) ^ (20 : Nat) < (1 / 2 : ℝ) ^ (20 : Nat) :=
    pow_lt_pow_left₀ hlt2 hpos.le (by norm_num)
  rw [h20] at hpow
  norm_num at hpow


/-- One call of the compressor as the plugin of the counterexample configures it (threshold
`1`, makeup gain `1`, ratio `2`, attack and release of `0` samples) over a stream with window
mean of squares `S`: below the threshold the sample is returned unchanged, above it the
sample is scaled by `sqrt(S)^(1/2) / sqrt(S)`. -/
theorem plugin_step (log10 : ℝ → ℝ) (epsilon : ℝ) (s : Nat → ℝ) (k : Nat) (c : compressor ℝ)
    (S : ℝ) (henv : mean_inv (quadratic_mean_functor Real.sqrt) 40 s k c.envelope_)
    (hS : ∑ j in Finset.Ico (k + 1) (k + 1 + 40), s j * s j / ((40 : Nat) : ℝ) = S)
    (hthr : c.threshold_ = 1) (hg : c.gain_ = 1) (hrat : c.ratio_ = 2)
    (ha : c.attack_delta_ = none) (hr : c.release_delta_ = none) :
    ∃ r, c.call (fun a b => a ^ b) log10 epsilon (s (k + 40)) false = .ok r ∧
      mean_inv (quadratic_mean_functor Real.sqrt) 40 s (k + 1) r.state.envelope_ ∧
      r.state.threshold_ = 1 ∧ r.state.gain_ = 1 ∧ r.state.ratio_ = 2 ∧
      r.state.attack_delta_ = none ∧ r.state.release_delta_ = none ∧
      (0 < S → S < 1 → r.sample = some (s (k + 40))) ∧
      (1 < S → r.sample =
        some (Real.sqrt S ^ (1 / 2 : ℝ) / Real.sqrt S * s (k + 40))) := by
  obtain ⟨env, hinv, hcall⟩ := compressor_call_on_stream (fun a b => a ^ b) log10 epsilon 40
    (by decide) s k c S henv hS
  refine ⟨_, hcall, hinv, hthr, hg, hrat, ha, hr, ?_, ?_⟩
  · intro h0 h1
    have hlt : Real.sqrt S < 1 := by
      rw [Real.sqrt_lt' one_pos]; simpa using h1
    have hne : Real.sqrt S ≠ 0 := (Real.sqrt_pos.mpr h0).ne'
    have hadj : c.adjust_transition (Real.sqrt S) = 0 := by
      simp [compressor.adjust_transition, hthr, hr, hlt, not_lt.mpr hlt.le]
    show ((compressor.compute_gain _ c (c.adjust_transition (Real.sqrt S))
      (Real.sqrt S)).map fun g => g * c.gain_).map (fun g => g * s (k + 40)) = _
    rw [hadj, compute_gain_of_ratio_one _ c 0 _ (by simp) (by rw [hthr]; exact one_ne_zero)
      hne]
    simp [hg]
  · intro h1
    have hgt : 1 < Real.sqrt S := by
      rw [Real.lt_sqrt zero_le_one]; simpa using h1
    have hpos : 0 < Real.sqrt S := lt_trans one_pos hgt
    have hadj : c.adjust_transition (Real.sqrt S) = 1 := by
      simp [compressor.adjust_transition, hthr, ha, hgt]
    show ((compressor.compute_gain _ c (c.adjust_transition (Real.sqrt S))
      (Real.sqrt S)).map fun g => g * c.gain_).map (fun g => g * s (k + 40)) = _
    rw [hadj, compute_gain_real c 1 _ (by rw [hthr]; exact one_pos) hpos
      (by rw [hrat]; norm_num)]
    simp only [Option.map_some', hthr, hg, hrat]
    congr 1
    norm_num


/-- A block of two frames `(a0, b0)`, `(a1, b1)` processed by the constructed plugin with
the parameters attack `0` ms, release `0` ms, threshold `0` dB, gain `0` dB, ratio `2` at
`44100` Hz: the block is processed, and the compressor's output for the channel-1 sample of
the second frame is governed by the mean of squares `(a0² + b0² + a1²)/40` of all three
samples seen so far, the channel-2 sample `b0` included. -/
theorem plugin_two_frames (a0 b0 a1 b1 : ℝ) :
    ∃ (p p2 : AudioCompressor ℝ) (y0 y1 y2 y3 : Option ℝ),
      AudioCompressor.init Real.sqrt (fun a b => a ^ b) Real.tanh 0 0 0 0 0 2 = .ok p ∧
      p.lim = limiter.init (fun a b => a ^ b) Real.tanh ∧
      AudioCompressor.ProcessDoubleReplacing (fun a b => a ^ b) (Real.logb 10)
        (2 ^ (-23 : ℤ)) 44100 p [(a0, b0), (a1, b1)] =
        .ok (p2, [(y0.bind p.lim.call, y1.bind p.lim.call),
                  (y2.bind p.lim.call, y3.bind p.lim.call)]) ∧
      (0 < a0 * a0 / 40 → a0 * a0 / 40 < 1 → y0 = some a0) ∧
      (0 < a0 * a0 / 40 + b0 * b0 / 40 + a1 * a1 / 40 →
        a0 * a0 / 40 + b0 * b0 / 40 + a1 * a1 / 40 < 1 → y2 = some a1) ∧
      (1 < a0 * a0 / 40 + b0 * b0 / 40 + a1 * a1 / 40 →
        y2 = some (Real.sqrt (a0 * a0 / 40 + b0 * b0 / 40 + a1 * a1 / 40) ^ (1 / 2 : ℝ) /
          Real.sqrt (a0 * a0 / 40 + b0 * b0 / 40 + a1 * a1 / 40) * a1)) := by
  generalize hs : (fun j : Nat => if j < 40 then (0 : ℝ) else [a0, b0, a1, b1].getD (j - 40) 0) = s
  have hs0 : ∀ j, j < 40 → s j * s j / ((40 : Nat) : ℝ) = 0 := by
    intro j hj
    rw [← hs]
    simp [hj]
  have hsv : ∀ m, s (40 + m) = [a0, b0, a1, b1].getD m 0 := by
    intro m
    rw [← hs]
    simp
  have hsum : ∀ k, k + 1 ≤ 40 →
      ∑ j in Finset.Ico (k + 1) (k + 1 + 40), s j * s j / ((40 : Nat) : ℝ) =
        ∑ m in Finset.range (k + 1), s (40 + m) * s (40 + m) / ((40 : Nat) : ℝ) :=
    fun k hk => fresh_window_sum 40 (fun j => s j * s j / ((40 : Nat) : ℝ)) hs0 (k + 1) hk
  obtain ⟨g0, hg0, hinv0⟩ := mean_inv_init (quadratic_mean_functor Real.sqrt) 40 (by decide)
    (0 : ℝ) s (by
      intro j hj
      rw [← hs]
      simp [hj])
  generalize hc0 : compressor.set_ratio (compressor.set_gain_dB (fun a b => a ^ b)
    (compressor.set_threshold_dB (fun a b => a ^ b) (compressor.set_release
      (compressor.set_attack
        { envelope_ := g0, threshold_ := 0, gain_ := 1, ratio_ := 1, attack_delta_ := some 1,
          release_delta_ := some 1, transition_ := (0 : ℝ) } 0) 0) 0) 0) 2 = c0
  have h0env : c0.envelope_ = g0 := by rw [← hc0]; rfl
  have h0thr : c0.threshold_ = 1 := by
    rw [← hc0]; simp [compressor.set_ratio, compressor.set_gain_dB, compressor.set_threshold_dB]
  have h0gain : c0.gain_ = 1 := by
    rw [← hc0]; simp [compressor.set_ratio, compressor.set_gain_dB]
  have h0rat : c0.ratio_ = 2 := by rw [← hc0]; rfl
  have h0att : c0.attack_delta_ = none := by
    rw [← hc0]
    simp [compressor.set_ratio, compressor.set_gain_dB, compressor.set_threshold_dB,
      compressor.set_release, compressor.set_attack, delta_of_count]
  have h0rel : c0.release_delta_ = none := by
    rw [← hc0]
    simp [compressor.set_ratio, compressor.set_gain_dB, compressor.set_threshold_dB,
      compressor.set_release, delta_of_count]
  obtain ⟨r1, hcall1, hinv1, ht1, hgn1, hrt1, ha1, hr1, hlow1, _⟩ :=
    plugin_step (Real.logb 10) (2 ^ (-23 : ℤ)) s 0 c0 (a0 * a0 / 40)
      (by rw [h0env]; exact hinv0)
      (by rw [hsum 0 (by decide)]; simp [Finset.sum_range_succ, hsv])
      h0thr h0gain h0rat h0att h0rel
  obtain ⟨r2, hcall2, hinv2, ht2, hgn2, hrt2, ha2, hr2, _, _⟩ :=
    plugin_step (Real.logb 10) (2 ^ (-23 : ℤ)) s 1 r1.state (a0 * a0 / 40 + b0 * b0 / 40)
      hinv1 (by rw [hsum 1 (by decide)]; simp [Finset.sum_range_succ, hsv])
      ht1 hgn1 hrt1 ha1 hr1
  obtain ⟨r3, hcall3, hinv3, ht3, hgn3, hrt3, ha3, hr3, hlow3, hhigh3⟩ :=
    plugin_step (Real.logb 10) (2 ^ (-23 : ℤ)) s 2 r2.state
      (a0 * a0 / 40 + b0 * b0 / 40 + a1 * a1 / 40)
      hinv2 (by rw [hsum 2 (by decide)]; simp [Finset.sum_range_succ, hsv])
      ht2 hgn2 hrt2 ha2 hr2
  obtain ⟨r4, hcall4, _, _, _, _, _, _, _, _⟩ :=
    plugin_step (Real.logb 10) (2 ^ (-23 : ℤ)) s 3 r3.state
      (a0 * a0 / 40 + b0 * b0 / 40 + a1 * a1 / 40 + b1 * b1 / 40)
      hinv3 (by rw [hsum 3 (by decide)]; simp [Finset.sum_range_succ, hsv])
      ht3 hgn3 hrt3 ha3 hr3
  have e0 : s (0 + 40) = a0 := by rw [Nat.add_comm, hsv]; rfl
  have e1 : s (1 + 40) = b0 := by rw [Nat.add_comm, hsv]; rfl
  have e2 : s (2 + 40) = a1 := by rw [Nat.add_comm, hsv]; rfl
  have e3 : s (3 + 40) = b1 := by rw [Nat.add_comm, hsv]; rfl
  rw [e0] at hcall1 hlow1
  rw [e1] at hcall2
  rw [e2] at hcall3 hlow3 hhigh3
  rw [e3] at hcall4
  have hrun : compressor.run (fun a b => a ^ b) (Real.logb 10) (2 ^ (-23 : ℤ)) c0
      [a0, b0, a1, b1] = .ok (r4.state, [r1.sample, r2.sample, r3.sample, r4.sample]) :=
    compressor_run_cons _ _ _ _ _ _ _ _ _ hcall1
      (compressor_run_cons _ _ _ _ _ _ _ _ _ hcall2
        (compressor_run_cons _ _ _ _ _ _ _ _ _ hcall3
          (compressor_run_cons _ _ _ _ _ _ _ _ _ hcall4 rfl)))
  have hinit : AudioCompressor.init Real.sqrt (fun a b => a ^ b) Real.tanh 0 0 0 0 0 2 = .ok
      { comp := { envelope_ := g0, threshold_ := 0, gain_ := 1, ratio_ := 1,
                  attack_delta_ := some 1, release_delta_ := some 1, transition_ := (0 : ℝ) },
        lim := limiter.init (fun a b => a ^ b) Real.tanh, mGain := 1, rms_period_ms := 0,
        attack_ms := 0, release_ms := 0, threshold_dB := 0, gain_dB := 0, ratio := 2 } := by
    simp [AudioCompressor.init, compressor.init, quadratic_mean, hg0, bind, Except.bind, pure,
      Except.pure]
  have hcfg : AudioCompressor.configure (fun a b => a ^ b) (44100 : ℝ)
      { comp := { envelope_ := g0, threshold_ := 0, gain_ := 1, ratio_ := 1,
                  attack_delta_ := some 1, release_delta_ := some 1, transition_ := (0 : ℝ) },
        lim := limiter.init (fun a b => a ^ b) Real.tanh, mGain := 1, rms_period_ms := 0,
        attack_ms := 0, release_ms := 0, threshold_dB := 0, gain_dB := 0, ratio := 2 } =
      .ok c0 := by
    rw [← hc0]
    norm_num [AudioCompressor.configure, to_size_t, bind, Except.bind, pure, Except.pure]
  obtain ⟨P, hP⟩ : ∃ P : AudioCompressor ℝ, P =
      { comp := { envelope_ := g0, threshold_ := 0, gain_ := 1, ratio_ := 1,
                  attack_delta_ := some 1, release_delta_ := some 1, transition_ := (0 : ℝ) },
        lim := limiter.init (fun a b => a ^ b) Real.tanh, mGain := 1, rms_period_ms := 0,
        attack_ms := 0, release_ms := 0, threshold_dB := 0, gain_dB := 0, ratio := 2 } :=
    ⟨_, rfl⟩
  rw [← hP] at hinit hcfg
  have hlim : P.lim = limiter.init (fun a b => a ^ b) Real.tanh := by rw [hP]
  have hmg : P.mGain = 1 := by rw [hP]
  refine ⟨P, { P with comp := r4.state }, r1.sample, r2.sample, r3.sample, r4.sample, hinit,
    hlim, ?_, hlow1, hlow3, hhigh3⟩
  rw [AudioCompressor.ProcessDoubleReplacing, hcfg]
  simp only [bind, Except.bind]
  rw [process_frames_eq_run]
  simp only [interleave, hmg, mul_one, hrun, Except.map, List.map_cons, List.map_nil, frames_of,
    pure, Except.pure]

/-- C11 fails: on the constructed plugin (attack `0` ms, release `0` ms, threshold `0` dB,
gain `0` dB, ratio `2`, `44100` Hz) two blocks with the same channel-1 samples `1/2, 1/2` and
the channel-2 samples `0, 0` and `7, 0` give different channel-1 outputs: `1/2, 1/2` in the
first run, `1/2, y` with `y < 1/2` in the second, because the channel-2 sample `7` of the
first frame has raised the level that the one compressor sees at the second frame. -/
theorem C11_counterexample :
    ∃ (p pA pB : AudioCompressor ℝ) (outsA outsB : List (Option ℝ × Option ℝ)) (y : ℝ),
      AudioCompressor.init Real.sqrt (fun a b => a ^ b) Real.tanh 0 0 0 0 0 2 = .ok p ∧
      AudioCompressor.ProcessDoubleReplacing (fun a b => a ^ b) (Real.logb 10)
        (2 ^ (-23 : ℤ)) 44100 p [(1 / 2, 0), (1 / 2, 0)] = .ok (pA, outsA) ∧
      AudioCompressor.ProcessDoubleReplacing (fun a b => a ^ b) (Real.logb 10)
        (2 ^ (-23 : ℤ)) 44100 p [(1 / 2, 7), (1 / 2, 0)] = .ok (pB, outsB) ∧
      outsA.map Prod.fst = [some (1 / 2), some (1 / 2)] ∧
      outsB.map Prod.fst = [some (1 / 2), some y] ∧ y < 1 / 2 := by
  obtain ⟨p, pA, a0, a1, a2, a3, hinitA, hlimA, hrunA, hA0, hA2, _⟩ :=
    plugin_two_frames (1 / 2) 0 (1 / 2) 0
  obtain ⟨p2, pB, b0, b1, b2, b3, hinitB, _, hrunB, hB0, _, hB2⟩ :=
    plugin_two_frames (1 / 2) 7 (1 / 2) 0
  have hp : p2 = p := by
    rw [hinitA] at hinitB
    exact (Except.ok.inj hinitB).symm
  subst hp
  have hthr : p2.lim.threshold_ = (10 : ℝ) ^ ((-1 : ℝ) / 20) := by
    rw [hlimA]; rfl
  have hhalf : p2.lim.call (1 / 2) = some (1 / 2) :=
    limiter_call_below _ _ (by
      rw [hthr, abs_of_pos (by norm_num : (0 : ℝ) < 1 / 2)]
      exact limiter_threshold_bound)
  have hSgt : (1 : ℝ) < 1 / 2 * (1 / 2) / 40 + 7 * 7 / 40 + 1 / 2 * (1 / 2) / 40 := by norm_num
  generalize hS : (1 / 2 * (1 / 2) / 40 + 7 * 7 / 40 + 1 / 2 * (1 / 2) / 40 : ℝ) = S at hB2 hSgt
  have hroot : 1 < Real.sqrt S := by
    rw [Real.lt_sqrt zero_le_one]; simpa using hSgt
  have hrpos : 0 < Real.sqrt S := lt_trans one_pos hroot
  have hpow : Real.sqrt S ^ (1 / 2 : ℝ) < Real.sqrt S := by
    have := Real.rpow_lt_rpow_of_exponent_lt hroot (by norm_num : (1 / 2 : ℝ) < 1)
    rwa [Real.rpow_one] at this
  have hpowpos : 0 < Real.sqrt S ^ (1 / 2 : ℝ) := Real.rpow_pos_of_pos hrpos _
  have hG1 : Real.sqrt S ^ (1 / 2 : ℝ) / Real.sqrt S < 1 := by
    rw [div_lt_one hrpos]; exact hpow
  have hG0 : 0 < Real.sqrt S ^ (1 / 2 : ℝ) / Real.sqrt S := div_pos hpowpos hrpos
  have hy0 : 0 < Real.sqrt S ^ (1 / 2 : ℝ) / Real.sqrt S * (1 / 2) := by positivity
  have hy1 : Real.sqrt S ^ (1 / 2 : ℝ) / Real.sqrt S * (1 / 2) < 1 / 2 := by nlinarith
  have hylim : p2.lim.call (Real.sqrt S ^ (1 / 2 : ℝ) / Real.sqrt S * (1 / 2)) =
      some (Real.sqrt S ^ (1 / 2 : ℝ) / Real.sqrt S * (1 / 2)) :=
    limiter_call_below _ _ (by
      rw [hthr, abs_of_pos hy0]
      exact le_trans hy1.le limiter_threshold_bound)
  refine ⟨p2, pA, pB, _, _, Real.sqrt S ^ (1 / 2 : ℝ) / Real.sqrt S * (1 / 2), hinitA, hrunA,
    hrunB, ?_, ?_, hy1⟩
  · rw [hA0 (by norm_num) (by norm_num), hA2 (by norm_num) (by norm_num)]
    simp only [List.map_cons, List.map_nil, Option.some_bind, hhalf]
  · rw [hB0 (by norm_num) (by norm_num), hB2 hSgt]
    simp only [List.map_cons, List.map_nil, Option.some_bind, hhalf, hylim]

/-- C11 (amended): in `ProcessDoubleReplacing` the two channels share the one compressor
`comp` and the one limiter `lim`. A block is processed as the single compressor run over
the interleaved samples `in1[0], in2[0], in1[1], in2[1], ...` (each scaled by `mGain`), each
returned sample then passed through the stateless limiter and the results regrouped into
frames; only `comp` changes in the plugin state. The compressor's envelope window and
transition are thus carried from one channel to the other. -/
theorem C11_channels_share_one_chain {α : Type} [LinearOrderedField α] [FloorRing α]
    (pow : α → α → α) (log10 : α → α) (epsilon sampleRate : α) (p : AudioCompressor α)
    (frames : List (α × α)) :
    AudioCompressor.ProcessDoubleReplacing pow log10 epsilon sampleRate p frames =
      (AudioCompressor.configure pow sampleRate p >>= fun c =>
        compressor.run pow log10 epsilon c (interleave p.mGain frames)).map
        fun r => ({ p with comp := r.1 }, frames_of (r.2.map fun y => y.bind p.lim.call)) := by
  rw [AudioCompressor.ProcessDoubleReplacing]
  cases hc : AudioCompressor.configure pow sampleRate p with
  | error f => rfl
  | ok c =>
    simp only [bind, Except.bind]
    rw [process_frames_eq_run]
    cases compressor.run pow log10 epsilon c (interleave p.mGain frames) with
    | error f => rfl
    | ok r => rfl


/-! ## Estimator: the write cursor -/

/-- C21: for an estimator constructed with `L ≥ 1`, after any number of steps the write
cursor `n_` is below `L` and equals the number of steps taken modulo `L`, the buffer still has
`L` slots, and the read and the write of `buffer_[n_]` in the next `operator()` call are in
bounds, so that call succeeds. -/
theorem C21_cursor_stays_in_bounds {α : Type} [LinearOrderedField α]
    (f : mean_functor α) (L : Nat) (hL : 1 ≤ L) (ic : α) (xs : List α) (x v : α) :
    ∃ g0 g ys, generalized_mean.init L f ic = .ok g0 ∧ g0.run xs = .ok (g, ys) ∧
      g.n_ < L ∧ g.n_ = xs.length % L ∧ g.L_ = L ∧ g.buffer_.length = L ∧
      (∃ old, trivial_array.read g.buffer_ g.n_ = .ok old) ∧
      (∃ b, trivial_array.write g.buffer_ g.n_ v = .ok b ∧ b.length = L) ∧
      ∃ g1 y, g.call x = .ok (g1, y) ∧ g1.n_ = (xs.length + 1) % L ∧
        g1.buffer_.length = L := by
  obtain ⟨g0, h0, hinv0, hL0, hn0⟩ := slots_inv_init f L hL ic
  obtain ⟨g, ys, hr, hinv, hLg, hn, _⟩ := slots_inv_run xs g0 hinv0
  have hgL : g.L_ = L := by rw [hLg, hL0]
  have hlen : g.buffer_.length = L := by rw [hinv.1, hgL]
  have hnL : g.n_ < L := by rw [← hgL]; exact hinv.2.1
  have hnv : g.n_ = xs.length % L := by rw [hn, hn0, hL0, Nat.zero_add]
  have hnb : g.n_ < g.buffer_.length := by rw [hlen]; exact hnL
  obtain ⟨g1, y, hc, hinv1, hL1, hn1, _⟩ := slots_inv_call g hinv x
  refine ⟨g0, g, ys, h0, hr, hnL, hnv, hgL, hlen, ?_, ?_, g1, y, hc, ?_, ?_⟩
  · exact ⟨g.buffer_[g.n_], by
      simp [trivial_array.read, List.getElem?_eq_getElem hnb]⟩
  · exact ⟨g.buffer_.set g.n_ v, by simp [trivial_array.write, hnb], by simpa using hlen⟩
  · rw [hn1, hgL, hnv, Nat.mod_add_mod]
  · rw [hinv1.1, hL1, hgL]

/-- C21 at `L = 2`, the arithmetic mean over the rationals, inputs `2, 4, 6`. -/
theorem C21_cursor_stays_in_bounds_witness :
    ∃ g0 g ys, generalized_mean.init 2 arithmetic_mean_functor (0 : ℚ) = .ok g0 ∧
      g0.run [2, 4, 6] = .ok (g, ys) ∧
      g.n_ < 2 ∧ g.n_ = [(2 : ℚ), 4, 6].length % 2 ∧ g.L_ = 2 ∧ g.buffer_.length = 2 ∧
      (∃ old, trivial_array.read g.buffer_ g.n_ = .ok old) ∧
      (∃ b, trivial_array.write g.buffer_ g.n_ 7 = .ok b ∧ b.length = 2) ∧
      ∃ g1 y, g.call 8 = .ok (g1, y) ∧ g1.n_ = ([(2 : ℚ), 4, 6].length + 1) % 2 ∧
        g1.buffer_.length = 2 :=
  C21_cursor_stays_in_bounds arithmetic_mean_functor 2 (by decide) 0 [2, 4, 6] 8 7

/-! ## The specialised functors against the general one -/

theorem general_functor_one :
    generalized_mean_functor Real.log Real.exp (fun a b => a ^ b) (1 : ℝ) =
      arithmetic_mean_functor := by
  simp [generalized_mean_functor, arithmetic_mean_functor]

theorem general_functor_two :
    generalized_mean_functor Real.log Real.exp (fun a b => a ^ b) (2 : ℝ) =
      quadratic_mean_functor Real.sqrt := by
  simp only [generalized_mean_functor, quadratic_mean_functor]
  have h0 : decide ((0 : ℝ) = 2) = false := by simp
  simp only [h0, Bool.false_eq_true, if_false, mean_functor.mk.injEq]
  constructor
  · funext s
    rw [Real.rpow_two, sq]
  · funext s
    rw [Real.sqrt_eq_rpow]

theorem general_functor_neg_one :
    generalized_mean_functor Real.log Real.exp (fun a b => a ^ b) (-1 : ℝ) =
      harmonic_mean_functor := by
  simp only [generalized_mean_functor, harmonic_mean_functor]
  have h0 : decide ((0 : ℝ) = -1) = false := by simp
  have h1 : (1 : ℝ) / (-1) = -1 := by norm_num
  simp only [h0, Bool.false_eq_true, if_false, mean_functor.mk.injEq, h1]
  constructor <;>
  · funext s
    rw [Real.rpow_neg_one, one_div]

theorem general_functor_zero :
    generalized_mean_functor Real.log Real.exp (fun a b => a ^ b) (0 : ℝ) =
      geometric_mean_functor Real.log Real.exp := by
  simp [generalized_mean_functor, geometric_mean_functor]


/-- Construction and any run succeed for `L ≥ 1`, whatever the functor. -/
theorem run_outputs_exist {α : Type} [LinearOrderedField α] (f : mean_functor α) (L : Nat)
    (hL : 1 ≤ L) (ic : α) (xs : List α) :
    ∃ g ys, (generalized_mean.init L f ic >>= fun g0 => g0.run xs) = .ok (g, ys) ∧
      ys.length = xs.length := by
  obtain ⟨g0, h0, hinv0, _, _⟩ := slots_inv_init f L hL ic
  obtain ⟨g, ys, hr, _, _, _, hlen⟩ := slots_inv_run xs g0 hinv0
  exact ⟨g, ys, by simp [h0, bind, Except.bind, hr], hlen⟩

/-- C22: for every positive real `s` the general functor agrees with each specialised
transform pair at the matching exponent: `p = 1` with the arithmetic pair (`power(s) =
root(s) = s`), `p = 2` with the quadratic pair (`s * s` and `sqrt(s)`), `p = -1` with the
harmonic pair (`1/s`), `p = 0` with the geometric pair (`ln` and `exp`); and on every positive
input sequence an estimator built on the general functor returns the same outputs as the one
built on the specialised functor. -/
theorem C22_specialised_functors_agree (s : ℝ) (L : Nat) (hL : 1 ≤ L) (ic : ℝ)
    (xs : List ℝ) :
    (0 < s →
      ((generalized_mean_functor Real.log Real.exp (fun a b => a ^ b) (1 : ℝ)).power s = s ∧
        (generalized_mean_functor Real.log Real.exp (fun a b => a ^ b) (1 : ℝ)).root s = s ∧
        (arithmetic_mean_functor : mean_functor ℝ).power s = s ∧
        (arithmetic_mean_functor : mean_functor ℝ).root s = s) ∧
      ((generalized_mean_functor Real.log Real.exp (fun a b => a ^ b) (2 : ℝ)).power s = s * s ∧
        (generalized_mean_functor Real.log Real.exp (fun a b => a ^ b) (2 : ℝ)).root s =
          Real.sqrt s ∧
        (quadratic_mean_functor Real.sqrt).power s = s * s ∧
        (quadratic_mean_functor Real.sqrt).root s = Real.sqrt s) ∧
      ((generalized_mean_functor Real.log Real.exp (fun a b => a ^ b) (-1 : ℝ)).power s = 1 / s ∧
        (generalized_mean_functor Real.log Real.exp (fun a b => a ^ b) (-1 : ℝ)).root s = 1 / s ∧
        (harmonic_mean_functor : mean_functor ℝ).power s = 1 / s ∧
        (harmonic_mean_functor : mean_functor ℝ).root s = 1 / s) ∧
      ((generalized_mean_functor Real.log Real.exp (fun a b => a ^ b) (0 : ℝ)).power s =
          Real.log s ∧
        (generalized_mean_functor Real.log Real.exp (fun a b => a ^ b) (0 : ℝ)).root s =
          Real.exp s ∧
        (geometric_mean_functor Real.log Real.exp).power s = Real.log s ∧
        (geometric_mean_functor Real.log Real.exp).root s = Real.exp s)) ∧
    ((∀ x ∈ xs, 0 < x) →
    (∃ g1 g2 ys,
        (generalized_mean.init L (generalized_mean_functor Real.log Real.exp
          (fun a b => a ^ b) (1 : ℝ)) ic >>= fun g0 => g0.run xs) = .ok (g1, ys) ∧
        (generalized_mean.init L arithmetic_mean_functor ic >>= fun g0 => g0.run xs) =
          .ok (g2, ys) ∧ ys.length = xs.length) ∧
    (∃ g1 g2 ys,
        (generalized_mean.init L (generalized_mean_functor Real.log Real.exp
          (fun a b => a ^ b) (2 : ℝ)) ic >>= fun g0 => g0.run xs) = .ok (g1, ys) ∧
        (generalized_mean.init L (quadratic_mean_functor Real.sqrt) ic >>= fun g0 =>
          g0.run xs) = .ok (g2, ys) ∧ ys.length = xs.length) ∧
    (∃ g1 g2 ys,
        (generalized_mean.init L (generalized_mean_functor Real.log Real.exp
          (fun a b => a ^ b) (-1 : ℝ)) ic >>= fun g0 => g0.run xs) = .ok (g1, ys) ∧
        (generalized_mean.init L harmonic_mean_functor ic >>= fun g0 => g0.run xs) =
          .ok (g2, ys) ∧ ys.length = xs.length) ∧
    (∃ g1 g2 ys,
        (generalized_mean.init L (generalized_mean_functor Real.log Real.exp
          (fun a b => a ^ b) (0 : ℝ)) ic >>= fun g0 => g0.run xs) = .ok (g1, ys) ∧
        (generalized_mean.init L (geometric_mean_functor Real.log Real.exp) ic >>= fun g0 =>
          g0.run xs) = .ok (g2, ys) ∧ ys.length = xs.length)) := by
  refine ⟨fun _ => ⟨⟨?_, ?_, rfl, rfl⟩, ⟨?_, ?_, rfl, rfl⟩, ⟨?_, ?_, rfl, rfl⟩,
    ⟨?_, ?_, rfl, rfl⟩⟩, fun _ => ⟨?_, ?_, ?_, ?_⟩⟩
  · rw [general_functor_one]; rfl
  · rw [general_functor_one]; rfl
  · rw [general_functor_two]; rfl
  · rw [general_functor_two]; rfl
  · rw [general_functor_neg_one]; rfl
  · rw [general_functor_neg_one]; rfl
  · rw [general_functor_zero]; rfl
  · rw [general_functor_zero]; rfl
  · obtain ⟨g, ys, h, hlen⟩ := run_outputs_exist arithmetic_mean_functor L hL ic xs
    exact ⟨g, g, ys, by rw [general_functor_one]; exact h, h, hlen⟩
  · obtain ⟨g, ys, h, hlen⟩ := run_outputs_exist (quadratic_mean_functor Real.sqrt) L hL ic xs
    exact ⟨g, g, ys, by rw [general_functor_two]; exact h, h, hlen⟩
  · obtain ⟨g, ys, h, hlen⟩ := run_outputs_exist harmonic_mean_functor L hL ic xs
    exact ⟨g, g, ys, by rw [general_functor_neg_one]; exact h, h, hlen⟩
  · obtain ⟨g, ys, h, hlen⟩ := run_outputs_exist (geometric_mean_functor Real.log Real.exp)
      L hL ic xs
    exact ⟨g, g, ys, by rw [general_functor_zero]; exact h, h, hlen⟩

/-- C22 at `s = 4`, `L = 2`, initial condition `1`, inputs `1, 4`: the quadratic pair and
the estimator built on it. -/
theorem C22_specialised_functors_agree_witness :
    ((generalized_mean_functor Real.log Real.exp (fun a b => a ^ b) (2 : ℝ)).power 4 =
        4 * 4 ∧
      (generalized_mean_functor Real.log Real.exp (fun a b => a ^ b) (2 : ℝ)).root 4 =
        Real.sqrt 4) ∧
    ∃ g1 g2 ys,
      (generalized_mean.init 2 (generalized_mean_functor Real.log Real.exp
        (fun a b => a ^ b) (2 : ℝ)) 1 >>= fun g0 => g0.run [1, 4]) = .ok (g1, ys) ∧
      (generalized_mean.init 2 (quadratic_mean_functor Real.sqrt) 1 >>= fun g0 =>
        g0.run [1, 4]) = .ok (g2, ys) ∧ ys.length = [(1 : ℝ), 4].length :=
  ⟨⟨((C22_specialised_functors_agree 4 2 (by decide) 1 [1, 4]).1 (by norm_num)).2.1.1,
    ((C22_specialised_functors_agree 4 2 (by decide) 1 [1, 4]).1 (by norm_num)).2.1.2.1⟩,
   ((C22_specialised_functors_agree 4 2 (by decide) 1 [1, 4]).2 (by
      intro x hx
      simp only [List.mem_cons, List.mem_singleton, List.not_mem_nil, or_false] at hx
      rcases hx with rfl | rfl <;> norm_num)).2.1⟩


/-! ## Limiter: sign, size and order of the output -/

theorem real_tanh_nonneg (x : ℝ) (hx : 0 ≤ x) : 0 ≤ Real.tanh x := by
  rw [Real.tanh_eq_sinh_div_cosh]
  exact div_nonneg (Real.sinh_nonneg_iff.mpr hx) (Real.cosh_pos x).le

theorem real_tanh_mono (x y : ℝ) (h : x ≤ y) : Real.tanh x ≤ Real.tanh y := by
  rw [Real.tanh_eq_sinh_div_cosh, Real.tanh_eq_sinh_div_cosh,
    div_le_div_iff₀ (Real.cosh_pos x) (Real.cosh_pos y)]
  have h1 : 0 ≤ Real.sinh (y - x) := Real.sinh_nonneg_iff.mpr (by linarith)
  rw [Real.sinh_sub] at h1
  linarith

theorem real_tanh_le_self (x : ℝ) (hx : 0 ≤ x) : Real.tanh x ≤ x := by
  have hd : ∀ u : ℝ, HasDerivAt (fun u => u * Real.cosh u - Real.sinh u)
      (1 * Real.cosh u + u * Real.sinh u - Real.cosh u) u := by
    intro u
    exact ((hasDerivAt_id u).mul (Real.hasDerivAt_cosh u)).sub (Real.hasDerivAt_sinh u)
  have hmono : Monotone (fun u => u * Real.cosh u - Real.sinh u) := by
    apply monotone_of_deriv_nonneg (fun u => (hd u).differentiableAt)
    intro u
    rw [(hd u).deriv]
    have : 0 ≤ u * Real.sinh u := by
      rcases le_total 0 u with h | h
      · exact mul_nonneg h (Real.sinh_nonneg_iff.mpr h)
      · exact mul_nonneg_of_nonpos_of_nonpos h (by
          have := Real.sinh_nonneg_iff.mpr (neg_nonneg.mpr h)
          rw [Real.sinh_neg] at this
          linarith)
    linarith
  have h0 := hmono hx
  simp only [zero_mul, Real.sinh_zero, sub_zero] at h0
  rw [Real.tanh_eq_sinh_div_cosh, div_le_iff₀ (Real.cosh_pos x)]
  linarith

/-- The limiter on a non-negative sample returns the shaped magnitude. -/
theorem limiter_call_nonneg {α : Type} [LinearOrderedField α] (l : limiter α) (x : α)
    (hx : 0 ≤ x) (ht : 0 ≤ l.threshold_) (hs : l.swing_ ≠ 0) :
    l.call x = some (l.shape x) := by
  unfold limiter.shape
  by_cases h : x ≤ l.threshold_
  · rw [if_pos h]
    exact limiter_call_below l x (by rw [abs_of_nonneg hx]; exact h)
  · rw [if_neg h]
    have hlt : l.threshold_ < x := not_le.mp h
    have hpos : 0 < x := lt_of_le_of_lt ht hlt
    rw [limiter_call_above l x (by rw [abs_of_pos hpos]; exact hlt) hs hpos.ne',
      abs_of_pos hpos, mul_div_cancel₀ _ hpos.ne']

/-- The limiter on a negative sample returns minus the shaped magnitude. -/
theorem limiter_call_neg {α : Type} [LinearOrderedField α] (l : limiter α) (x : α)
    (hx : x < 0) (hs : l.swing_ ≠ 0) :
    l.call x = some (-(l.shape (-x))) := by
  unfold limiter.shape
  have hnx : 0 < -x := neg_pos.mpr hx
  by_cases h : -x ≤ l.threshold_
  · rw [if_pos h, neg_neg]
    exact limiter_call_below l x (by rw [abs_of_neg hx]; exact h)
  · rw [if_neg h]
    have hlt : l.threshold_ < -x := not_le.mp h
    rw [limiter_call_above l x (by rw [abs_of_neg hx]; exact hlt) hs hx.ne, abs_of_neg hx]
    congr 1
    field_simp
    ring

/-- With `tanh`, a threshold in `(0,1)` and `swing = 1 - threshold`, the shaped magnitude of
`a ≥ 0` is between `0` and `a`, positive for positive `a`, and non-decreasing in `a`. -/
theorem shape_tanh (l : limiter ℝ) (hf : l.functor_ = Real.tanh) (ht0 : 0 < l.threshold_)
    (ht1 : l.threshold_ < 1) (hsw : l.swing_ = 1 - l.threshold_) :
    (∀ a, 0 ≤ a → 0 ≤ l.shape a ∧ l.shape a ≤ a) ∧ (∀ a, 0 < a → 0 < l.shape a) ∧
      ∀ a b, 0 ≤ a → a ≤ b → l.shape a ≤ l.shape b := by
  have hs : 0 < l.swing_ := by rw [hsw]; linarith
  have hval : ∀ a, l.threshold_ < a →
      l.shape a = l.threshold_ + Real.tanh ((a - l.threshold_) / l.swing_) * l.swing_ := by
    intro a ha
    simp [limiter.shape, not_le.mpr ha, hf]
  have hlow : ∀ a, a ≤ l.threshold_ → l.shape a = a := by
    intro a ha
    simp [limiter.shape, ha]
  have hge : ∀ a, l.threshold_ < a → l.threshold_ ≤ l.shape a := by
    intro a ha
    rw [hval a ha]
    have := real_tanh_nonneg ((a - l.threshold_) / l.swing_)
      (div_nonneg (by linarith) hs.le)
    nlinarith
  refine ⟨?_, ?_, ?_⟩
  · intro a ha
    by_cases h : a ≤ l.threshold_
    · rw [hlow a h]; exact ⟨ha, le_rfl⟩
    · have hlt : l.threshold_ < a := not_le.mp h
      refine ⟨le_trans ht0.le (hge a hlt), ?_⟩
      rw [hval a hlt]
      have hu : 0 ≤ (a - l.threshold_) / l.swing_ := div_nonneg (by linarith) hs.le
      have h1 := real_tanh_le_self _ hu
      have h2 : Real.tanh ((a - l.threshold_) / l.swing_) * l.swing_ ≤
          (a - l.threshold_) / l.swing_ * l.swing_ := mul_le_mul_of_nonneg_right h1 hs.le
      rw [div_mul_cancel₀ _ hs.ne'] at h2
      linarith
  · intro a ha
    by_cases h : a ≤ l.threshold_
    · rw [hlow a h]; exact ha
    · exact lt_of_lt_of_le ht0 (hge a (not_le.mp h))
  · intro a b _ hab
    by_cases hb : b ≤ l.threshold_
    · rw [hlow a (le_trans hab hb), hlow b hb]; exact hab
    · have hbt : l.threshold_ < b := not_le.mp hb
      by_cases ha : a ≤ l.threshold_
      · rw [hlow a ha]; exact le_trans ha (hge b hbt)
      · have hat : l.threshold_ < a := not_le.mp ha
        rw [hval a hat, hval b hbt]
        have hm := real_tanh_mono ((a - l.threshold_) / l.swing_)
          ((b - l.threshold_) / l.swing_)
          (div_le_div_of_nonneg_right (by linarith) hs.le)
        have := mul_le_mul_of_nonneg_right hm hs.le
        linarith

/-- C23: for the limiter with `tanh` and a threshold in `(0,1)`, every non-zero sample `x`
gives an output `y = g * x` with a gain `g` in `(0, 1]`: `y` has the sign of `x` and
`|y| ≤ |x|`. -/
theorem C23_limiter_gain_in_unit_interval (l : limiter ℝ) (hf : l.functor_ = Real.tanh)
    (ht0 : 0 < l.threshold_) (ht1 : l.threshold_ < 1) (hsw : l.swing_ = 1 - l.threshold_)
    (x : ℝ) (hx : x ≠ 0) :
    ∃ y, l.call x = some y ∧ (0 < x → 0 < y) ∧ (x < 0 → y < 0) ∧ |y| ≤ |x| ∧
      ∃ g, 0 < g ∧ g ≤ 1 ∧ y = g * x := by
  have hs : l.swing_ ≠ 0 := by rw [hsw]; linarith
  obtain ⟨hb, hp, _⟩ := shape_tanh l hf ht0 ht1 hsw
  rcases lt_or_gt_of_ne hx with hneg | hpos
  · have hnx : 0 < -x := neg_pos.mpr hneg
    have h1 := hb (-x) hnx.le
    have h2 := hp (-x) hnx
    refine ⟨_, limiter_call_neg l x hneg hs, fun h => absurd h (not_lt.mpr hneg.le),
      fun _ => by linarith, ?_, l.shape (-x) / (-x), div_pos h2 hnx, ?_, ?_⟩
    · rw [abs_neg, abs_of_pos h2, abs_of_neg hneg]; exact h1.2
    · rw [div_le_one hnx]; exact h1.2
    · field_simp
  · have h1 := hb x hpos.le
    have h2 := hp x hpos
    refine ⟨_, limiter_call_nonneg l x hpos.le ht0.le hs, fun _ => h2,
      fun h => absurd h (not_lt.mpr hpos.le), ?_, l.shape x / x, div_pos h2 hpos, ?_, ?_⟩
    · rw [abs_of_pos h2, abs_of_pos hpos]; exact h1.2
    · rw [div_le_one hpos]; exact h1.2
    · field_simp

/-- C23 at threshold `1/2` and sample `-3`. -/
theorem C23_limiter_gain_in_unit_interval_witness :
    ∃ y, (limiter.set_threshold { functor_ := Real.tanh, threshold_ := 0, swing_ := 0 }
        (1 / 2 : ℝ)).call (-3) = some y ∧
      (0 < (-3 : ℝ) → 0 < y) ∧ ((-3 : ℝ) < 0 → y < 0) ∧ |y| ≤ |(-3 : ℝ)| ∧
      ∃ g, 0 < g ∧ g ≤ 1 ∧ y = g * (-3) :=
  C23_limiter_gain_in_unit_interval _ rfl (by norm_num [limiter.set_threshold])
    (by norm_num [limiter.set_threshold]) rfl (-3) (by norm_num)

/-- C24: for the limiter with `tanh` and a threshold in `(0,1)` the transfer function is
non-decreasing over the reals: `x ≤ y` gives `limiter(x) ≤ limiter(y)`, also across the
boundary between pass-through and waveshaping. -/
theorem C24_limiter_is_monotone (l : limiter ℝ) (hf : l.functor_ = Real.tanh)
    (ht0 : 0 < l.threshold_) (ht1 : l.threshold_ < 1) (hsw : l.swing_ = 1 - l.threshold_)
    (x y : ℝ) (hxy : x ≤ y) :
    ∃ a b, l.call x = some a ∧ l.call y = some b ∧ a ≤ b := by
  have hs : l.swing_ ≠ 0 := by rw [hsw]; linarith
  obtain ⟨hb, _, hm⟩ := shape_tanh l hf ht0 ht1 hsw
  rcases lt_or_le x 0 with hx | hx
  · rcases lt_or_le y 0 with hy | hy
    · refine ⟨_, _, limiter_call_neg l x hx hs, limiter_call_neg l y hy hs, ?_⟩
      have := hm (-y) (-x) (by linarith) (by linarith)
      linarith
    · refine ⟨_, _, limiter_call_neg l x hx hs, limiter_call_nonneg l y hy ht0.le hs, ?_⟩
      have h1 := (hb (-x) (by linarith)).1
      have h2 := (hb y hy).1
      linarith
  · have hy : 0 ≤ y := le_trans hx hxy
    exact ⟨_, _, limiter_call_nonneg l x hx ht0.le hs, limiter_call_nonneg l y hy ht0.le hs,
      hm x y hx hxy⟩

/-- C24 at threshold `1/2`, across the boundary: samples `1/4` and `3`. -/
theorem C24_limiter_is_monotone_witness :
    ∃ a b, (limiter.set_threshold { functor_ := Real.tanh, threshold_ := 0, swing_ := 0 }
        (1 / 2 : ℝ)).call (1 / 4) = some a ∧
      (limiter.set_threshold { functor_ := Real.tanh, threshold_ := 0, swing_ := 0 }
        (1 / 2 : ℝ)).call 3 = some b ∧ a ≤ b :=
  C24_limiter_is_monotone _ rfl (by norm_num [limiter.set_threshold])
    (by norm_num [limiter.set_threshold]) rfl (1 / 4) 3 (by norm_num)

/-! ## Compressor: the gain against the threshold -/

/-- C25: in a reachable compressor state with `threshold > 0` and `ratio ≥ 1`, on a call with
envelope level `|e| > 0`, the gain `g` before makeup (the returned sample is
`g * makeup_gain * x`) is `≤ 1` when the level is at or above the threshold, `≥ 1` when it is
at or below, `1` at equality, and strictly below resp. above `1` when the effective ratio
`1 + transition * (ratio - 1)` exceeds `1` and the level differs from the threshold; so a
level below the threshold is amplified while the transition is above `0` (and `ratio > 1`). -/
theorem C25_gain_against_threshold (sqrt : ℝ → ℝ) (log10 : ℝ → ℝ) (epsilon : ℝ)
    (c : compressor ℝ) (hreach : compressor.reachable sqrt (fun a b => a ^ b) log10 epsilon c)
    (x : ℝ) (w : Bool) (env : generalized_mean ℝ) (e : ℝ)
    (he : c.envelope_.call x = .ok (env, e)) (ht : 0 < c.threshold_) (hρ : 1 ≤ c.ratio_)
    (hl : 0 < |e|) :
    ∃ r g, c.call (fun a b => a ^ b) log10 epsilon x w = .ok r ∧
      compressor.compute_gain (fun a b => a ^ b) c r.state.transition_ |e| = some g ∧
      r.sample = some (g * c.gain_ * x) ∧
      (c.threshold_ ≤ |e| → g ≤ 1) ∧ (|e| ≤ c.threshold_ → 1 ≤ g) ∧
      (|e| = c.threshold_ → g = 1) ∧
      (1 < 1 + r.state.transition_ * (c.ratio_ - 1) → c.threshold_ < |e| → g < 1) ∧
      (1 < 1 + r.state.transition_ * (c.ratio_ - 1) → |e| < c.threshold_ → 1 < g) ∧
      (|e| < c.threshold_ → 0 < r.state.transition_ → 1 < c.ratio_ → 1 < g) := by
  obtain ⟨⟨h0, h1⟩, ha, hr⟩ := reachable_bounds sqrt _ log10 epsilon c hreach
  obtain ⟨hT0, _⟩ := adjust_transition_bounds c |e| h0 h1 ha hr
  generalize hT : c.adjust_transition |e| = T at hT0
  have hR1 : 1 ≤ 1 + T * (c.ratio_ - 1) := by nlinarith
  generalize hR : 1 + T * (c.ratio_ - 1) = R at hR1
  have hRpos : 0 < R := by linarith
  have hgain := compute_gain_real c T |e| ht hl (by rw [hR]; exact hRpos.ne')
  rw [hR] at hgain
  have hrel : 0 < |e| / c.threshold_ := div_pos hl ht
  generalize hrelv : |e| / c.threshold_ = rel at hgain hrel
  have hexp1 : 1 / R ≤ 1 := by rw [div_le_one hRpos]; exact hR1
  have hpowpos : 0 < rel ^ (1 / R) := Real.rpow_pos_of_pos hrel _
  have hg : c.threshold_ * rel ^ (1 / R) / |e| = rel ^ (1 / R) / rel := by
    rw [← hrelv]
    field_simp
    ring
  rw [hg] at hgain
  have hcmp1 : c.threshold_ ≤ |e| ↔ 1 ≤ rel := by
    rw [← hrelv, one_le_div ht]
  have hcmp2 : |e| ≤ c.threshold_ ↔ rel ≤ 1 := by
    rw [← hrelv, div_le_one ht]
  have hcmp3 : c.threshold_ < |e| ↔ 1 < rel := by
    rw [← hrelv, one_lt_div ht]
  have hcmp4 : |e| < c.threshold_ ↔ rel < 1 := by
    rw [← hrelv, div_lt_one ht]
  have hle : 1 ≤ rel → rel ^ (1 / R) / rel ≤ 1 := by
    intro h
    rw [div_le_one hrel]
    have := Real.rpow_le_rpow_of_exponent_le h hexp1
    rwa [Real.rpow_one] at this
  have hge : rel ≤ 1 → 1 ≤ rel ^ (1 / R) / rel := by
    intro h
    rw [one_le_div hrel]
    have := Real.rpow_le_rpow_of_exponent_ge hrel h hexp1
    rwa [Real.rpow_one] at this
  have hlt : 1 < R → 1 < rel → rel ^ (1 / R) / rel < 1 := by
    intro hR2 h
    rw [div_lt_one hrel]
    have hexp : 1 / R < 1 := by rw [div_lt_one hRpos]; exact hR2
    have := Real.rpow_lt_rpow_of_exponent_lt h hexp
    rwa [Real.rpow_one] at this
  have hgt : 1 < R → rel < 1 → 1 < rel ^ (1 / R) / rel := by
    intro hR2 h
    rw [one_lt_div hrel]
    have hexp : 1 / R < 1 := by rw [div_lt_one hRpos]; exact hR2
    have := Real.rpow_lt_rpow_of_exponent_gt hrel h hexp
    rwa [Real.rpow_one] at this
  refine ⟨_, rel ^ (1 / R) / rel, compressor_call_of_envelope _ log10 epsilon c x w env e he,
    ?_, ?_, ?_, ?_, ?_, ?_, ?_, ?_⟩
  · show compressor.compute_gain _ c (c.adjust_transition |e|) |e| = _
    rw [hT]; exact hgain
  · show ((compressor.compute_gain _ c (c.adjust_transition |e|) |e|).map
      fun g => g * c.gain_).map (fun g => g * x) = _
    rw [hT, hgain]
    rfl
  · intro h; exact hle (hcmp1.mp h)
  · intro h; exact hge (hcmp2.mp h)
  · intro h
    exact le_antisymm (hle (hcmp1.mp h.symm.le)) (hge (hcmp2.mp h.le))
  · intro h2 h
    show _ < (1 : ℝ)
    have h2' : 1 < 1 + c.adjust_transition |e| * (c.ratio_ - 1) := h2
    rw [hT, hR] at h2'
    exact hlt h2' (hcmp3.mp h)
  · intro h2 h
    have h2' : 1 < 1 + c.adjust_transition |e| * (c.ratio_ - 1) := h2
    rw [hT, hR] at h2'
    exact hgt h2' (hcmp4.mp h)
  · intro h hpos hrat
    have hpos' : 0 < c.adjust_transition |e| := hpos
    rw [hT] at hpos'
    have h2 : 1 < R := by
      rw [← hR]
      nlinarith
    exact hgt h2 (hcmp4.mp h)

/-- C25 on the compressor constructed with envelope length `1`, then `set_threshold(1/2)` and
`set_ratio(4)`, on the sample `1` (level `1`, above the threshold). -/
theorem C25_gain_against_threshold_witness :
    ∃ r g, compressor.call (fun a b => a ^ b) (Real.logb 10) (2 ^ (-23 : ℤ))
        ({ envelope_ := { functor_ := quadratic_mean_functor Real.sqrt, buffer_ := [0],
                          pmean_ := 0, L_ := 1, n_ := 0 },
           threshold_ := 1 / 2, gain_ := 1, ratio_ := 4, attack_delta_ := some 1,
           release_delta_ := some 1, transition_ := 0 } : compressor ℝ) 1 false = .ok r ∧
      r.sample = some (g * 1 * 1) ∧ g ≤ 1 := by
  obtain ⟨r, g, h1, _, h3, h4, _⟩ := C25_gain_against_threshold Real.sqrt (Real.logb 10)
    (2 ^ (-23 : ℤ))
    ({ envelope_ := { functor_ := quadratic_mean_functor Real.sqrt, buffer_ := [0],
                      pmean_ := 0, L_ := 1, n_ := 0 },
       threshold_ := 1 / 2, gain_ := 1, ratio_ := 4, attack_delta_ := some 1,
       release_delta_ := some 1, transition_ := 0 } : compressor ℝ)
    (compressor.reachable.set_ratio _ 4 (compressor.reachable.set_threshold _ (1 / 2)
      (compressor.reachable.init 1
        { envelope_ := { functor_ := quadratic_mean_functor Real.sqrt, buffer_ := [0],
                         pmean_ := 0, L_ := 1, n_ := 0 },
          threshold_ := 0, gain_ := 1, ratio_ := 1, attack_delta_ := some 1,
          release_delta_ := some 1, transition_ := 0 }
        (by simp [compressor.init, quadratic_mean, generalized_mean.init,
              trivial_array.make, trivial_array.read, bind, Except.bind, pure,
              Except.pure, quadratic_mean_functor]))))
    1 false
    { functor_ := quadratic_mean_functor Real.sqrt, buffer_ := [1], pmean_ := 1, L_ := 1, n_ := 0 }
    1
    (by simp [generalized_mean.call, trivial_array.read, trivial_array.write,
          quadratic_mean_functor, bind, Except.bind, pure, Except.pure])
    (by norm_num) (by norm_num) (by norm_num)
  exact ⟨r, g, h1, h3, h4 (by norm_num)⟩


end dsp
